import Mathlib

/-! analog2pi: dual channel ADC driver (custom/analog2pi.c)

Shallow embedding of the bitstream decoders `spiparse` and `pcmparse` and of the
character device `read` handler, followed by the properties proved about them.

Conventions of the embedding.
* The capture region `mem` is viewed as an array of 32-bit words: `Mem` maps a
  word index `i` to the content of `*((unsigned*)mem + i)`.  A pointer of type
  `uint32_t*` into the region is represented by its word index.
* Unsigned 32-bit arithmetic is arithmetic on `Nat` reduced modulo `2^32`;
  `uint8_t` arithmetic is reduced modulo `2^8`.
* Every C loop is a function recursing on a fuel argument, with the loop guard
  tested explicitly in the body.  The bounded loops are started with more fuel
  than they have iterations; the busy wait of `read` is the only loop that can
  run out of fuel.
-/

namespace Analog2pi

/-! ## Memory layout -/

/-- Content of the capture region, word by word. -/
abbrev Mem := Nat → Nat

/-- Reduction to an `unsigned` value. -/
def u32 (n : Nat) : Nat := n % 2 ^ 32

/-- Load of a 32-bit word through a `uint32_t*`. -/
def load (mem : Mem) (address : Nat) : Nat := u32 (mem address)

/-- Word index of the first word of the SPI receive area (`(unsigned*)mem + 60`). -/
def spibase : Nat := 60

/-- Word index of the first word of the PCM receive area (`(unsigned*)mem + 60 + 16200`). -/
def pcmbase : Nat := 60 + 16200

/-- Word index of `spiend = mem + 240 + 64800` (byte arithmetic on `void*`). -/
def spiend : Nat := (240 + 64800) / 4

/-- Word index of `pcmend = mem + 240 + 64800 + 64800` (byte arithmetic on `void*`). -/
def pcmend : Nat := (240 + 64800 + 64800) / 4

/-! ## spiparse -/

/-- Innermost loop of `spiparse`: `for (k = 0x80; k > 0; k = k >> 1)`.
`Except.error v` is the early `return value`; `Except.ok v` is the normal loop exit
with the counter `value` equal to `v`. -/
def spiBitLoop (byte : Nat) : Nat → Nat → Nat → Except Nat Nat
  | 0, _, value => .ok value
  | fuel + 1, k, value =>
    if k > 0 then
      if k &&& byte = 0 then .error value
      else spiBitLoop byte fuel (k >>> 1) ((value + 1) % 256)
    else .ok value

/-- Middle loop of `spiparse`: `for (j = 0; j < 32; j += 8)`. -/
def spiByteLoop (word : Nat) : Nat → Nat → Nat → Except Nat Nat
  | 0, _, value => .ok value
  | fuel + 1, j, value =>
    if j < 32 then
      match spiBitLoop ((word >>> j) &&& 0xff) 9 0x80 value with
      | .error v => .error v
      | .ok value => spiByteLoop word fuel (j + 8) value
    else .ok value

/-- Outer loop of `spiparse`: `for (i = 0; i < 4; i++)`. -/
def spiWordLoop (mem : Mem) (address : Nat) : Nat → Nat → Nat → Except Nat Nat
  | 0, _, value => .ok value
  | fuel + 1, i, value =>
    if i < 4 then
      match spiByteLoop (load mem (address + i)) 5 0 value with
      | .error v => .error v
      | .ok value => spiWordLoop mem address fuel (i + 1) value
    else .ok value

/-- The function `spiparse`: position of the first zero bit in the SPI sample starting at
`address`, 128 if the three loops run to completion. -/
def spiparse (mem : Mem) (address : Nat) : Nat :=
  match spiWordLoop mem address 5 0 0 with
  | .error v => v
  | .ok _ => 128

/-! ## pcmparse -/

/-- The loop of `pcmparse`: `for (k = 0; k < 128; k++)`; the result is the value of `k`
when the loop is left, by `break` or by the guard. -/
def pcmLoop (mem : Mem) : Nat → Nat → Nat → Nat → Nat → Nat
  | 0, _, _, _, k => k
  | fuel + 1, address, mask, word, k =>
    if k < 128 then
      if word &&& mask = 0 then k
      else
        let mask := mask >>> 1
        if mask = 0 then
          let mask := 0x80000000
          let address := address + 1
          let address := if address = pcmend then address - 16200 else address
          pcmLoop mem fuel address mask (load mem address) ((k + 1) % 256)
        else pcmLoop mem fuel address mask word ((k + 1) % 256)
    else k

/-- The function `pcmparse`: position of the first zero bit in the PCM sample starting at
`address` under `mask`. -/
def pcmparse (mem : Mem) (address mask : Nat) : Nat :=
  pcmLoop mem 129 address mask (load mem address) 0

/-! ## The read handler -/

/-- Variables of the driver that `read` works with: the globals `spioff`, `pcmoff`, `mask`,
`half` and `bus`, and the static locals `middle` and `time` of `read`.  (The static loop
counter `k` of `read` is set before each use and is left out.) -/
structure Driver where
  spioff : Nat
  pcmoff : Nat
  mask : Nat
  half : Nat
  bus : Nat
  middle : Nat
  time : Nat
deriving DecidableEq

/-- The two hardware registers polled by `read`.  `timer n` and `dmapos n` are the values
that the free running timer and the register at `dma1 + 4` (the write position of the SPI
receive DMA) hold when the `n`-th `ioread32` of the run is issued. -/
structure Hardware where
  timer : Nat → Nat
  dmapos : Nat → Nat

/-- What a call of `read` leaves behind: its return value, the driver variables, the content
of the caller's buffer, and the number of `ioread32` issued so far. -/
structure Outcome where
  ret : Nat
  drv : Driver
  buffer : Nat → Nat
  tick : Nat

/-- Store of one byte to user memory, `put_user(x, buffer + k)` with `buffer` a `char*`. -/
def put_user (x : Nat) (buffer : Nat → Nat) (k : Nat) : Nat → Nat :=
  fun i => if i = k then x % 256 else buffer i

/-- Pointer update at the end of one iteration of a sample loop of `read`: `address += 6`,
followed in the bottom half loops by `if (address >= end) address -= 16200` where `end` is
`spiend` or `pcmend`; the top half loops have no such test (`none`). -/
def advance (wrap : Option Nat) (address : Nat) : Nat :=
  match wrap with
  | none => address + 6
  | some e => if address + 6 ≥ e then address + 6 - 16200 else address + 6

/-- A sample loop of `read`:
`for (k = k0; k < length; k += 2) { put_user(parse(address), buffer + k); address += 6; .. }`.
The four loops of `read` are the instances with `parse` one of the two decoders and `wrap`
absent (top half) or the end of the ring (bottom half). -/
def scanLoop (parse : Nat → Nat) (wrap : Option Nat) (length : Nat) :
    Nat → Nat → Nat → (Nat → Nat) → (Nat → Nat)
  | 0, _, _, buffer => buffer
  | fuel + 1, k, address, buffer =>
    if k < length then
      scanLoop parse wrap length fuel (k + 2) (advance wrap address)
        (put_user (parse address) buffer k)
    else buffer

/-- Guard of the busy wait: for the top half (`half == 0`) the wait goes on while the write
position is below `middle`, for the bottom half while it is above `middle`. -/
def keepsWaiting (half middle pos : Nat) : Bool :=
  if half = 0 then decide (pos < middle) else decide (pos > middle)

/-- The busy wait `do {time = ioread32(timer);} while (ioread32(dma1 + 4) < middle);` of the
top half, and its mirror image with `>` of the bottom half.  The result is the recorded
`time` and the count of register reads, or `none` when the wait is still going on after
`fuel` polls. -/
def waitStable (hw : Hardware) (half middle : Nat) : Nat → Nat → Option (Nat × Nat)
  | 0, _ => none
  | fuel + 1, tick =>
    let time := u32 (hw.timer tick)
    if keepsWaiting half middle (u32 (hw.dmapos (tick + 1))) then
      waitStable hw half middle fuel (tick + 2)
    else some (time, tick + 2)

/-- The test that ends `read`:
`((ioread32(timer) - time) < 20000) & (ioread32(dma1 + 4) > middle)` for the top half,
the same with `< middle` for the bottom half; the subtraction is unsigned. -/
def verifyStable (hw : Hardware) (half middle time tick : Nat) : Bool :=
  decide (u32 (u32 (hw.timer tick) + 2 ^ 32 - time) < 20000) &&
    (if half = 0 then decide (u32 (hw.dmapos (tick + 1)) > middle)
     else decide (u32 (hw.dmapos (tick + 1)) < middle))

/-- The value given to `middle`: `bus + 240 + (spioff * 4) + 32400` in unsigned arithmetic. -/
def middleOf (d : Driver) : Nat := u32 (d.bus + 240 + d.spioff * 4 + 32400)

/-- The handler `read`.  `mem` is the content of the capture region that the decoders see
during the call, `tick` the number of `ioread32` issued before the call, `buffer` the
content of the caller's buffer.  The result is `none` when the busy wait has not ended after
`fuel` polls. -/
def read (hw : Hardware) (mem : Mem) (fuel : Nat) (d : Driver) (tick : Nat)
    (buffer : Nat → Nat) (length : Nat) : Option Outcome :=
  let half := u32 (d.half ^^^ 1)
  let middle := middleOf d
  let d := { d with half := half, middle := middle }
  if length > 2700 then some { ret := 0, drv := d, buffer := buffer, tick := tick }
  else if half = 0 then
    match waitStable hw half middle fuel tick with
    | none => none
    | some (time, tick) =>
      let buffer := scanLoop (spiparse mem) none length (length + 1) 0
        (spibase + d.spioff + 2) buffer
      let buffer := scanLoop (fun a => pcmparse mem a d.mask) none length (length + 1) 1
        (pcmbase + d.pcmoff + 2) buffer
      if verifyStable hw half middle time tick then
        some { ret := length, drv := { d with time := time }, buffer := buffer, tick := tick + 2 }
      else
        some { ret := 0, drv := { d with time := time }, buffer := buffer, tick := tick + 2 }
  else
    match waitStable hw half middle fuel tick with
    | none => none
    | some (time, tick) =>
      let buffer := scanLoop (spiparse mem) (some spiend) length (length + 1) 0
        (spibase + 8100 + d.spioff + 2) buffer
      let buffer := scanLoop (fun a => pcmparse mem a d.mask) (some pcmend) length (length + 1) 1
        (pcmbase + 8100 + d.pcmoff + 2) buffer
      if verifyStable hw half middle time tick then
        some { ret := length, drv := { d with time := time }, buffer := buffer, tick := tick + 2 }
      else
        some { ret := 0, drv := { d with time := time }, buffer := buffer, tick := tick + 2 }

/-! ## Successive calls of read -/

/-- The arguments and surroundings of one call of `read`: the content of the capture region
during the call, the fuel granted to its busy wait, the caller's buffer and the length. -/
structure ReadCall where
  mem : Mem
  fuel : Nat
  buffer : Nat → Nat
  length : Nat

/-- A run of calls of `read`, one after the other, each starting from the driver variables
and the register read count that the previous one left.  The result is `none` when one of
the calls does not return within its fuel. -/
def runReads (hw : Hardware) : List ReadCall → Driver → Nat → Option (Driver × Nat)
  | [], d, tick => some (d, tick)
  | c :: cs, d, tick =>
    match read hw c.mem c.fuel d tick c.buffer c.length with
    | none => none
    | some o => runReads hw cs o.drv o.tick

/-! ## offset -/

/-- The wait of `offset`: `do {} while (ioread32(dma1 + 4) > spitop + 1000);`.  The result is
the count of register reads, or `none` when the wait is still going on after `fuel` polls. -/
def offsetWait (hw : Hardware) (spitop : Nat) : Nat → Nat → Option Nat
  | 0, _ => none
  | fuel + 1, tick =>
    if u32 (hw.dmapos tick) > u32 (spitop + 1000) then offsetWait hw spitop fuel (tick + 1)
    else some (tick + 1)

/-- The two scans of `offset` for the first nonzero word:
`for (j = 0; j < 2000; j++) { if (*((unsigned*)mem + base + j) != 0) break; }`, with `base`
60 for SPI and 60 + 16200 for PCM; the result is the value of `j` after the loop. -/
def firstNonzero (mem : Mem) (base : Nat) : Nat → Nat → Nat
  | 0, j => j
  | fuel + 1, j =>
    if j < 2000 then
      if load mem (base + j) ≠ 0 then j
      else firstNonzero mem base fuel (j + 1)
    else j

/-- The scan of `offset` for the transition mask:
`for (j = 0x80000000; j > 0; j = (j>>1)) { if ((word & j) != 0) break; }`; the result is the
value of `j` after the loop. -/
def maskLoop (word : Nat) : Nat → Nat → Nat
  | 0, j => j
  | fuel + 1, j =>
    if j > 0 then
      if word &&& j ≠ 0 then j
      else maskLoop word fuel (j >>> 1)
    else j

/-- The reduction at the end of `offset`, from the raw scan results to the stored pair
`(spioff, pcmoff)`:
`if (pcmoff < spioff) {factor = pcmoff / 6;} else {factor = spioff / 6;};`
`pcmoff = pcmoff - (factor * 6); spioff = spioff - (factor * 6);` in unsigned arithmetic. -/
def reduceOffsets (spioff pcmoff : Nat) : Nat × Nat :=
  let factor := if pcmoff < spioff then pcmoff / 6 else spioff / 6
  let pcmoff := u32 (pcmoff + 2 ^ 32 - u32 (factor * 6))
  let spioff := u32 (spioff + 2 ^ 32 - u32 (factor * 6))
  (spioff, pcmoff)

/-- The function `offset`.  `mem` is the content of the capture region when the scans run,
that is after the buffers were cleared and the DMA has written into them again; the stores
to the region and the GPIO writes made by `offset` are not part of the model.  The result is
`none` when the wait has not ended after `fuel` polls. -/
def offset (hw : Hardware) (mem : Mem) (fuel : Nat) (d : Driver) (tick : Nat) :
    Option (Driver × Nat) :=
  let spitop := u32 (d.bus + 240)
  match offsetWait hw spitop fuel tick with
  | none => none
  | some tick =>
    let spioff := firstNonzero mem spibase 2001 0
    let j := firstNonzero mem pcmbase 2001 0
    let word := load mem (pcmbase + j)
    let pcmoff := j
    let mask := maskLoop word 33 0x80000000
    let r := reduceOffsets spioff pcmoff
    some ({ d with spioff := r.1, pcmoff := r.2, mask := mask }, tick)

/-! ## memory, dma and the failure paths of init_module -/

/-- Store of one word, `*((unsigned*)mem + i) = v`. -/
def poke (mem : Mem) (i v : Nat) : Mem :=
  fun a => if a = i then u32 v else mem a

/-- The stores of `memory` into the allocated region, in the order of the source: the four DMA
control blocks at the words 0, 8, 16 and 24, the word for the DLEN register and the reset
pulse pattern.  `bus` is the bus address of the region. -/
def memoryFill (bus : Nat) (mem : Mem) : Mem :=
  -- dma control block for pcm receive
  let mem := poke mem 0 ((1 <<< 26) ||| (3 <<< 16) ||| (1 <<< 10) ||| (1 <<< 4) ||| (1 <<< 3))
  let mem := poke mem 1 0x7e203004
  let mem := poke mem 2 (bus + 64800 + 240)
  let mem := poke mem 3 64800
  let mem := poke mem 4 0
  let mem := poke mem 5 bus
  let mem := poke mem 6 0
  let mem := poke mem 7 0
  -- dma control block for dlen
  let mem := poke mem 8 ((31 <<< 26) ||| (1 <<< 12) ||| (1 <<< 8) ||| (1 <<< 6))
  let mem := poke mem 9 (bus + 132)
  let mem := poke mem 10 0x7e20400c
  let mem := poke mem 11 4
  let mem := poke mem 12 0
  let mem := poke mem 13 (bus + 64)
  let mem := poke mem 14 0
  let mem := poke mem 15 0
  -- dma control block for spi transmit
  let mem := poke mem 16
    ((1 <<< 26) ||| (6 <<< 16) ||| (1 <<< 12) ||| (1 <<< 8) ||| (1 <<< 6) ||| (1 <<< 3) ||| (1 <<< 1))
  let mem := poke mem 17 (bus + 136)
  let mem := poke mem 18 0x7e204004
  let mem := poke mem 19 ((800 <<< 16) ||| 24)
  let mem := poke mem 20 ((2 ^ 32 - 24) &&& 0xffff)
  let mem := poke mem 21 (bus + 32)
  let mem := poke mem 22 0
  let mem := poke mem 23 0
  -- dma control block for spi receive
  let mem := poke mem 24 ((1 <<< 26) ||| (7 <<< 16) ||| (1 <<< 10) ||| (1 <<< 4) ||| (1 <<< 3))
  let mem := poke mem 25 0x7e204004
  let mem := poke mem 26 (bus + 240)
  let mem := poke mem 27 64800
  let mem := poke mem 28 0
  let mem := poke mem 29 (bus + 96)
  let mem := poke mem 30 0
  let mem := poke mem 31 0
  -- dma data to set dlen
  let mem := poke mem 33 0xffff
  -- dma data for spi transmit (reset pulse)
  let mem := poke mem 34 0x00feffff
  let mem := poke mem 35 0
  let mem := poke mem 36 0
  let mem := poke mem 37 0
  let mem := poke mem 38 0
  let mem := poke mem 39 0
  mem

/-- The function `memory`.  `alloc` is the result of `dma_zalloc_coherent`: `none` for `NULL`,
`some bus` for a zeroed region at bus address `bus`.  The result is the return value and,
when the region exists, its bus address and content. -/
def memory (alloc : Option Nat) : Int × Option (Nat × Mem) :=
  match alloc with
  | none => (-1, none)
  | some bus => (0, some (bus, memoryFill bus (fun _ => 0)))

/-- Address in the next control block field of the DMA control block at bus address `addr`: a
control block is 8 words long and its sixth word is the link to the next one. -/
def nextLink (bus : Nat) (mem : Mem) (addr : Nat) : Nat :=
  load mem ((addr - bus) / 4 + 5)

/-- What the driver holds of the resources it acquires at start up: the DMA channels that were
allocated and not freed, and whether the capture region is allocated. -/
structure Resources where
  channels : List Int
  region : Bool
deriving DecidableEq

/-- Modelled from the spec: the effect of the channel allocator `bcm_dma_chan_alloc`, whose
code is not among the sources at hand, on the channels held, given its result `r`: a
non-negative result is the id of a channel that is now held, a negative result allocates
nothing. -/
def chanAlloc (r : Int) (held : List Int) : List Int :=
  if r ≥ 0 then r :: held else held

/-- Modelled from the spec: the effect of `bcm_dma_chan_free`, whose code is not among the
sources at hand: the channel is no longer held. -/
def chanFree (c : Int) (held : List Int) : List Int :=
  held.erase c

/-- The function `dma`, with `r0`, `r1`, `r2` the results of its three calls of
`bcm_dma_chan_alloc` (the later ones are not called after an early return).  The result is the
return value and the channels held on return; the register writes that follow the third
allocation are not part of the model. -/
def dma (r0 r1 r2 : Int) (held : List Int) : Int × List Int :=
  let channel0 := r0
  let held := chanAlloc r0 held
  if channel0 < 0 then (-1, held)
  else
    let channel1 := r1
    let held := chanAlloc r1 held
    if channel1 < 1 then (-1, chanFree channel0 held)
    else
      let channel2 := r2
      let held := chanAlloc r2 held
      if channel2 < 2 then (-1, chanFree channel0 (chanFree channel1 held))
      else (0, held)

/-- The function `init_module` up to the last point at which it reports a failure:
`if (memory() == -1) return -1;` and
`if (dma() == -1) { dma_free_coherent(NULL, 131072, mem, bus); return -1; }`.
The result is the return value and the resources held; the value 0 stands for the path that
goes on to the device node, the peripherals, `sync` and `offset`, which acquire nothing that
this model tracks. -/
def init_module (alloc : Option Nat) (r0 r1 r2 : Int) : Int × Resources :=
  match memory alloc with
  | (ret, region) =>
    if ret = -1 then (-1, { channels := [], region := false })
    else
      match dma r0 r1 r2 [] with
      | (ret2, held) =>
        if ret2 = -1 then (-1, { channels := held, region := false })
        else (0, { channels := held, region := region.isSome })

/-! ## Sample inputs -/

/-- Driver variables as `init_module` leaves them (`half = 1`) for a capture region at bus
address `0xC0000000`, both offsets 0 and the transition mask at bit 31. -/
def bootDriver : Driver :=
  { spioff := 0, pcmoff := 0, mask := 2 ^ 31, half := 1, bus := 0xC0000000, middle := 0, time := 0 }

/-- Hardware whose SPI write position stays at `bus + 40000`, in the bottom half, and whose
timer advances by one unit per register read. -/
def steadyHardware : Hardware :=
  { timer := fun n => n, dmapos := fun _ => 0xC0000000 + 40000 }

/-- Hardware whose SPI write position stays at `bus + 40000` and whose timer advances by
30000 units per register read. -/
def slowHardware : Hardware :=
  { timer := fun n => 30000 * n, dmapos := fun _ => 0xC0000000 + 40000 }

/-- Hardware whose SPI write position stays at `bus + 240`, the top of the ring, and whose
timer advances by one unit per register read. -/
def idleHardware : Hardware :=
  { timer := fun n => n, dmapos := fun _ => 0xC0000000 + 240 }

/-- Hardware whose SPI write position is at `bus + 40000`, in the bottom half, during the
register reads 0 to 3, at `bus + 240`, in the top half, during the reads 4 to 7, and so on in
turns; the timer advances by one unit per register read. -/
def sweepHardware : Hardware :=
  { timer := fun n => n
    dmapos := fun n => if n / 4 % 2 = 0 then 0xC0000000 + 40000 else 0xC0000000 + 240 }

/-- A call of `read` of length 2 on a cleared capture region, with fuel for one poll. -/
def shortCall : ReadCall :=
  { mem := fun _ => 0, fuel := 1, buffer := fun _ => 0, length := 2 }

/-- Driver variables after a calibration that found both raw offsets at 1 (so that both stored
offsets are 1) and with the cursor at 0, so that the next read is one of the bottom half. -/
def lateDriver : Driver :=
  { spioff := 1, pcmoff := 1, mask := 2 ^ 31, half := 0, bus := 0xC0000000, middle := 0, time := 0 }

/-- A capture region whose only nonzero words are word 0 of the SPI area and word 7 of the
PCM area. -/
def skewedMem : Mem :=
  fun a => if a = spibase then 1 else if a = pcmbase + 7 then 1 else 0

/-! ## Order in which the decoders visit the bits -/

/-- Bit examined by `spiparse` at step `n` of its scan of the window at `address`: word
`n / 32` of the window, byte `n % 32 / 8` of that word, bit `7 - n % 8` of that byte. -/
def spiVisit (mem : Mem) (address n : Nat) : Bool :=
  (load mem (address + n / 32)).testBit (8 * (n % 32 / 8) + (7 - n % 8))

/-- Bit `n` of the PCM bit stream that starts at bit `b` of ring word `w`: the stream runs
down to bit 0 of a word and continues at bit 31 of the next ring word, the word after
ring word 16199 being ring word 0. -/
def pcmStreamBit (mem : Mem) (w b n : Nat) : Bool :=
  (load mem (pcmbase + (w + (31 - b + n) / 32) % 16200)).testBit (31 - (31 - b + n) % 32)

/-- Outcome of a scan of the bits `lo, lo + 1, ..` up to `hi`: either it stopped at the
first zero bit `v`, or it ran to `hi` over one bits only. -/
def ScanPost (bit : Nat → Bool) (lo hi : Nat) : Except Nat Nat → Prop
  | .error v => lo ≤ v ∧ v < hi ∧ (∀ n, lo ≤ n → n < v → bit n = true) ∧ bit v = false
  | .ok v => v = hi ∧ ∀ n, lo ≤ n → n < hi → bit n = true

/-- The capture region `skewedMem` with both nonzero words moved down by one period of 6
words: word 6 of the SPI area and word 13 of the PCM area. -/
def shiftedMem : Mem :=
  fun a => if a = spibase + 6 then 1 else if a = pcmbase + 13 then 1 else 0

/-- The first nonzero word of the area starting at word `base` is word `a`, within the first
2000 words of the area. -/
def FirstNonzeroAt (mem : Mem) (base a : Nat) : Prop :=
  a < 2000 ∧ (∀ j, j < a → load mem (base + j) = 0) ∧ load mem (base + a) ≠ 0

/-! ## Auxiliary facts on bits -/

theorem two_pow_and_eq_zero (x t : Nat) : 2 ^ t &&& x = 0 ↔ x.testBit t = false := by
  constructor
  · intro h
    have h1 : (2 ^ t &&& x).testBit t = false := by rw [h]; exact Nat.zero_testBit t
    rw [Nat.testBit_and, Nat.testBit_two_pow_self] at h1
    simpa using h1
  · intro h
    apply Nat.eq_of_testBit_eq
    intro i
    rw [Nat.testBit_and, Nat.testBit_two_pow, Nat.zero_testBit]
    by_cases hti : t = i
    · subst hti; simp [h]
    · simp [hti]

theorem and_two_pow_eq_zero (x t : Nat) : x &&& 2 ^ t = 0 ↔ x.testBit t = false := by
  rw [Nat.and_comm]; exact two_pow_and_eq_zero x t

theorem two_pow_succ_shiftRight (t : Nat) : 2 ^ (t + 1) >>> 1 = 2 ^ t := by
  rw [Nat.shiftRight_eq_div_pow, pow_succ]; simp

theorem testBit_byte (word j t : Nat) (ht : t < 8) :
    ((word >>> j) &&& 0xff).testBit t = word.testBit (j + t) := by
  have h : (0xff : Nat) = 2 ^ 8 - 1 := by norm_num
  rw [h, Nat.testBit_and, Nat.testBit_shiftRight, Nat.testBit_two_pow_sub_one]
  simp [ht]

/-! ## Composition of scans -/

theorem ScanPost.step {bit : Nat → Bool} {lo hi : Nat} {r : Except Nat Nat}
    (h0 : bit lo = true) (h : ScanPost bit (lo + 1) hi r) : ScanPost bit lo hi r := by
  cases r with
  | error v =>
    obtain ⟨h1, h2, h3, h4⟩ := h
    refine ⟨by omega, h2, ?_, h4⟩
    intro n hn hnv
    by_cases e : n = lo
    · rw [e]; exact h0
    · exact h3 n (by omega) hnv
  | ok v =>
    obtain ⟨h1, h2⟩ := h
    refine ⟨h1, ?_⟩
    intro n hn hnv
    by_cases e : n = lo
    · rw [e]; exact h0
    · exact h2 n (by omega) hnv

theorem ScanPost.append {bit : Nat → Bool} {lo mid hi : Nat} {r : Except Nat Nat}
    (hlo : lo ≤ mid) (h0 : ∀ n, lo ≤ n → n < mid → bit n = true)
    (h : ScanPost bit mid hi r) : ScanPost bit lo hi r := by
  cases r with
  | error v =>
    obtain ⟨h1, h2, h3, h4⟩ := h
    refine ⟨by omega, h2, ?_, h4⟩
    intro n hn hnv
    by_cases e : n < mid
    · exact h0 n hn e
    · exact h3 n (by omega) hnv
  | ok v =>
    obtain ⟨h1, h2⟩ := h
    refine ⟨h1, ?_⟩
    intro n hn hnv
    by_cases e : n < mid
    · exact h0 n hn e
    · exact h2 n (by omega) hnv

theorem ScanPost.widen {bit : Nat → Bool} {lo mid hi v : Nat}
    (hmid : mid ≤ hi) (h : ScanPost bit lo mid (.error v)) : ScanPost bit lo hi (.error v) := by
  obtain ⟨h1, h2, h3, h4⟩ := h
  exact ⟨h1, by omega, h3, h4⟩

/-! ## The loops of spiparse -/

theorem spiBitLoop_zero (byte fuel value : Nat) : spiBitLoop byte fuel 0 value = .ok value := by
  cases fuel <;> simp [spiBitLoop]

theorem spiBitLoop_spec (byte : Nat) (bit : Nat → Bool) :
    ∀ t fuel value, t < fuel → value + t < 128 →
      (∀ d, d ≤ t → bit (value + d) = byte.testBit (t - d)) →
      ScanPost bit value (value + t + 1) (spiBitLoop byte fuel (2 ^ t) value) := by
  intro t
  induction t with
  | zero =>
    intro fuel value hf hv hb
    obtain ⟨f, rfl⟩ : ∃ f, fuel = f + 1 := ⟨fuel - 1, by omega⟩
    have hb0 := hb 0 (le_refl 0)
    simp only [Nat.add_zero, Nat.sub_zero] at hb0
    by_cases hz : byte.testBit 0 = false
    · have : 2 ^ 0 &&& byte = 0 := (two_pow_and_eq_zero byte 0).2 hz
      simp only [spiBitLoop, this]
      simp only [pow_zero, gt_iff_lt, Nat.lt_one_iff, pos_of_gt, ↓reduceIte]
      exact ⟨le_refl _, by omega, fun n h1 h2 => by omega, by rw [hb0]; exact hz⟩
    · have : ¬ (2 ^ 0 &&& byte = 0) := fun h => hz ((two_pow_and_eq_zero byte 0).1 h)
      simp only [spiBitLoop, this]
      have h1 : (2 ^ 0 : Nat) >>> 1 = 0 := by decide
      have h2 : (value + 1) % 256 = value + 1 := by omega
      simp only [h1, h2, spiBitLoop_zero]
      simp only [pow_zero, gt_iff_lt, Nat.lt_one_iff, pos_of_gt, ↓reduceIte]
      refine ⟨by omega, ?_⟩
      intro n hn hn2
      have : n = value := by omega
      rw [this, hb0]
      simpa using hz
  | succ t ih =>
    intro fuel value hf hv hb
    obtain ⟨f, rfl⟩ : ∃ f, fuel = f + 1 := ⟨fuel - 1, by omega⟩
    have hb0 := hb 0 (Nat.zero_le _)
    simp only [Nat.add_zero, Nat.sub_zero] at hb0
    have hpos : 2 ^ (t + 1) > 0 := Nat.two_pow_pos _
    by_cases hz : byte.testBit (t + 1) = false
    · have : 2 ^ (t + 1) &&& byte = 0 := (two_pow_and_eq_zero byte (t + 1)).2 hz
      simp only [spiBitLoop, this, hpos, ↓reduceIte]
      exact ⟨le_refl _, by omega, fun n h1 h2 => by omega, by rw [hb0]; exact hz⟩
    · have : ¬ (2 ^ (t + 1) &&& byte = 0) :=
        fun h => hz ((two_pow_and_eq_zero byte (t + 1)).1 h)
      have h2 : (value + 1) % 256 = value + 1 := by omega
      simp only [spiBitLoop, this, hpos, ↓reduceIte, two_pow_succ_shiftRight, h2]
      have hrec := ih f (value + 1) (by omega) (by omega) (by
        intro d hd
        have := hb (d + 1) (by omega)
        rw [show value + 1 + d = value + (d + 1) by omega, this]
        congr 1
        omega)
      have hrec2 : ScanPost bit (value + 1) (value + (t + 1) + 1)
          (spiBitLoop byte f (2 ^ t) (value + 1)) := by
        rw [show value + (t + 1) + 1 = value + 1 + t + 1 by omega]; exact hrec
      exact ScanPost.step (by rw [hb0]; simpa using hz) hrec2

theorem spiByteLoop_spec (word : Nat) (bit : Nat → Bool) (base : Nat) (hbase : base + 32 ≤ 128)
    (hbit : ∀ n, n < 32 → bit (base + n) = word.testBit (8 * (n / 8) + (7 - n % 8))) :
    ∀ r q fuel, q + r = 4 → r < fuel →
      ScanPost bit (base + 8 * q) (base + 32) (spiByteLoop word fuel (8 * q) (base + 8 * q)) := by
  intro r
  induction r with
  | zero =>
    intro q fuel hq hf
    obtain ⟨f, rfl⟩ : ∃ f, fuel = f + 1 := ⟨fuel - 1, by omega⟩
    have hq4 : q = 4 := by omega
    subst hq4
    simp only [spiByteLoop]
    exact ⟨by simp, fun n h1 h2 => by omega⟩
  | succ r ih =>
    intro q fuel hq hf
    obtain ⟨f, rfl⟩ : ∃ f, fuel = f + 1 := ⟨fuel - 1, by omega⟩
    have hj : 8 * q < 32 := by omega
    have hinner := spiBitLoop_spec ((word >>> (8 * q)) &&& 0xff) bit 7 9 (base + 8 * q)
      (by omega) (by omega) (by
        intro d hd
        rw [testBit_byte word (8 * q) (7 - d) (by omega), Nat.add_assoc, hbit (8 * q + d) (by omega)]
        congr 1
        omega)
    have h80 : (0x80 : Nat) = 2 ^ 7 := by norm_num
    rw [spiByteLoop, if_pos hj, h80]
    cases hres : spiBitLoop ((word >>> (8 * q)) &&& 0xff) 9 (2 ^ 7) (base + 8 * q) with
    | error v =>
      rw [hres] at hinner
      exact ScanPost.widen (by omega) hinner
    | ok v =>
      rw [hres] at hinner
      obtain ⟨hv, hones⟩ := hinner
      have hrec := ih (q + 1) f (by omega) (by omega)
      have hv2 : v = base + 8 * (q + 1) := by omega
      rw [hv2, show 8 * q + 8 = 8 * (q + 1) by omega]
      exact ScanPost.append (by omega) (fun n h1 h2 => hones n h1 (by omega)) hrec

theorem spiWordLoop_spec (mem : Mem) (address : Nat) :
    ∀ r i fuel, i + r = 4 → r < fuel →
      ScanPost (spiVisit mem address) (32 * i) 128 (spiWordLoop mem address fuel i (32 * i)) := by
  intro r
  induction r with
  | zero =>
    intro i fuel hi hf
    obtain ⟨f, rfl⟩ : ∃ f, fuel = f + 1 := ⟨fuel - 1, by omega⟩
    have hi4 : i = 4 := by omega
    subst hi4
    simp only [spiWordLoop]
    exact ⟨by simp, fun n h1 h2 => by omega⟩
  | succ r ih =>
    intro i fuel hi hf
    obtain ⟨f, rfl⟩ : ∃ f, fuel = f + 1 := ⟨fuel - 1, by omega⟩
    have hi4 : i < 4 := by omega
    have hinner := spiByteLoop_spec (load mem (address + i)) (spiVisit mem address) (32 * i)
      (by omega) (by
        intro n hn
        unfold spiVisit
        rw [show (32 * i + n) / 32 = i by omega, show (32 * i + n) % 32 / 8 = n / 8 by omega,
          show (32 * i + n) % 8 = n % 8 by omega]) 4 0 5 (by omega) (by omega)
    simp only [Nat.mul_zero, Nat.add_zero] at hinner
    rw [spiWordLoop, if_pos hi4]
    cases hres : spiByteLoop (load mem (address + i)) 5 0 (32 * i) with
    | error v =>
      rw [hres] at hinner
      exact ScanPost.widen (by omega) hinner
    | ok v =>
      rw [hres] at hinner
      obtain ⟨hv, hones⟩ := hinner
      have hrec := ih (i + 1) f (by omega) (by omega)
      have hv2 : v = 32 * (i + 1) := by omega
      rw [hv2]
      exact ScanPost.append (by omega) (fun n h1 h2 => hones n h1 (by omega)) hrec

/-- Characterisation of the result of `spiparse` by the bits it visits. -/
theorem spiparse_spec (mem : Mem) (address : Nat) :
    spiparse mem address ≤ 128 ∧
    (∀ n, n < spiparse mem address → spiVisit mem address n = true) ∧
    (spiparse mem address < 128 → spiVisit mem address (spiparse mem address) = false) := by
  have h := spiWordLoop_spec mem address 4 0 5 (by omega) (by omega)
  simp only [Nat.mul_zero] at h
  unfold spiparse
  cases hres : spiWordLoop mem address 5 0 0 with
  | error v =>
    rw [hres] at h
    obtain ⟨_, h2, h3, h4⟩ := h
    exact ⟨by simp only; omega, fun n hn => h3 n (Nat.zero_le _) hn, fun _ => h4⟩
  | ok v =>
    rw [hres] at h
    obtain ⟨_, h2⟩ := h
    exact ⟨le_refl _, fun n hn => h2 n (Nat.zero_le _) hn, fun hlt => absurd hlt (lt_irrefl _)⟩

/-! ## The loop of pcmparse -/

theorem pcmStreamBit_zero (mem : Mem) (a b : Nat) (ha : a < 16200) (hb : b ≤ 31) :
    pcmStreamBit mem a b 0 = (load mem (pcmbase + a)).testBit b := by
  unfold pcmStreamBit
  rw [show (a + (31 - b + 0) / 32) % 16200 = a by omega,
    show 31 - (31 - b + 0) % 32 = b by omega]

theorem pcmStreamBit_succ_same (mem : Mem) (a b n : Nat) (hb : b + 1 ≤ 31) :
    pcmStreamBit mem a (b + 1) (n + 1) = pcmStreamBit mem a b n := by
  unfold pcmStreamBit
  rw [show 31 - (b + 1) + (n + 1) = 31 - b + n by omega]

theorem pcmStreamBit_succ_next (mem : Mem) (a n : Nat) :
    pcmStreamBit mem a 0 (n + 1) = pcmStreamBit mem ((a + 1) % 16200) 31 n := by
  unfold pcmStreamBit
  rw [show (a + (31 - 0 + (n + 1)) / 32) % 16200 = ((a + 1) % 16200 + (31 - 31 + n) / 32) % 16200
      by omega,
    show (31 - 0 + (n + 1)) % 32 = (31 - 31 + n) % 32 by omega]

theorem pcmLoop_spec (mem : Mem) :
    ∀ r fuel a b k, k + r = 128 → r < fuel → a < 16200 → b ≤ 31 →
      k ≤ pcmLoop mem fuel (pcmbase + a) (2 ^ b) (load mem (pcmbase + a)) k ∧
      pcmLoop mem fuel (pcmbase + a) (2 ^ b) (load mem (pcmbase + a)) k ≤ 128 ∧
      (∀ n, n + k < pcmLoop mem fuel (pcmbase + a) (2 ^ b) (load mem (pcmbase + a)) k →
        pcmStreamBit mem a b n = true) ∧
      (pcmLoop mem fuel (pcmbase + a) (2 ^ b) (load mem (pcmbase + a)) k < 128 →
        pcmStreamBit mem a b
          (pcmLoop mem fuel (pcmbase + a) (2 ^ b) (load mem (pcmbase + a)) k - k) = false) := by
  intro r
  induction r with
  | zero =>
    intro fuel a b k hk hf ha hb
    obtain ⟨f, rfl⟩ : ∃ f, fuel = f + 1 := ⟨fuel - 1, by omega⟩
    have hk128 : ¬ k < 128 := by omega
    simp only [pcmLoop, hk128, ↓reduceIte]
    exact ⟨le_refl _, by omega, fun n hn => by omega, fun h => h.elim⟩
  | succ r ih =>
    intro fuel a b k hk hf ha hb
    obtain ⟨f, rfl⟩ : ∃ f, fuel = f + 1 := ⟨fuel - 1, by omega⟩
    have hk128 : k < 128 := by omega
    have hk256 : (k + 1) % 256 = k + 1 := by omega
    have h0 := pcmStreamBit_zero mem a b ha hb
    by_cases hz : (load mem (pcmbase + a)).testBit b = false
    · have hand : load mem (pcmbase + a) &&& 2 ^ b = 0 := (and_two_pow_eq_zero _ b).2 hz
      simp only [pcmLoop, hk128, hand, ↓reduceIte]
      refine ⟨le_refl _, by omega, fun n hn => by omega, fun _ => ?_⟩
      rw [Nat.sub_self, h0]; exact hz
    · have hand : ¬ (load mem (pcmbase + a) &&& 2 ^ b = 0) :=
        fun h => hz ((and_two_pow_eq_zero _ b).1 h)
      have hone : pcmStreamBit mem a b 0 = true := by rw [h0]; simpa using hz
      cases b with
      | zero =>
        have hsh : (2 ^ 0 : Nat) >>> 1 = 0 := by decide
        have haddr : (if pcmbase + a + 1 = pcmend then pcmbase + a + 1 - 16200
            else pcmbase + a + 1) = pcmbase + (a + 1) % 16200 := by
          unfold pcmbase pcmend
          split <;> omega
        have h31 : (0x80000000 : Nat) = 2 ^ 31 := by norm_num
        rw [pcmLoop]
        simp only [hk128, hand, ↓reduceIte, hsh, haddr, hk256, h31]
        obtain ⟨i1, i2, i3, i4⟩ := ih f ((a + 1) % 16200) 31 (k + 1) (by omega) (by omega)
          (Nat.mod_lt _ (by decide)) (le_refl _)
        refine ⟨by omega, i2, ?_, ?_⟩
        · intro n hn
          cases n with
          | zero => exact hone
          | succ m =>
            rw [pcmStreamBit_succ_next]
            exact i3 m (by omega)
        · intro hlt
          have := i4 hlt
          rw [show pcmLoop mem f (pcmbase + (a + 1) % 16200) (2 ^ 31)
              (load mem (pcmbase + (a + 1) % 16200)) (k + 1) - k
              = (pcmLoop mem f (pcmbase + (a + 1) % 16200) (2 ^ 31)
              (load mem (pcmbase + (a + 1) % 16200)) (k + 1) - (k + 1)) + 1 by omega,
            pcmStreamBit_succ_next]
          exact this
      | succ b =>
        have hsh : (2 ^ (b + 1) : Nat) >>> 1 = 2 ^ b := two_pow_succ_shiftRight b
        have hne : ¬ ((2 : Nat) ^ b = 0) := Nat.pos_iff_ne_zero.1 (Nat.two_pow_pos b)
        rw [pcmLoop]
        simp only [hk128, hand, ↓reduceIte, hsh, hne, hk256]
        obtain ⟨i1, i2, i3, i4⟩ := ih f a b (k + 1) (by omega) (by omega) ha (by omega)
        refine ⟨by omega, i2, ?_, ?_⟩
        · intro n hn
          cases n with
          | zero => exact hone
          | succ m =>
            rw [pcmStreamBit_succ_same mem a b _ (by omega)]
            exact i3 m (by omega)
        · intro hlt
          have := i4 hlt
          rw [show pcmLoop mem f (pcmbase + a) (2 ^ b) (load mem (pcmbase + a)) (k + 1) - k
              = (pcmLoop mem f (pcmbase + a) (2 ^ b) (load mem (pcmbase + a)) (k + 1) - (k + 1)) + 1
              by omega,
            pcmStreamBit_succ_same mem a b _ (by omega)]
          exact this

/-- Characterisation of the result of `pcmparse` by the bits of the stream. -/
theorem pcmparse_spec (mem : Mem) (w b : Nat) (hw : w < 16200) (hb : b ≤ 31) :
    pcmparse mem (pcmbase + w) (2 ^ b) ≤ 128 ∧
    (∀ n, n < pcmparse mem (pcmbase + w) (2 ^ b) → pcmStreamBit mem w b n = true) ∧
    (pcmparse mem (pcmbase + w) (2 ^ b) < 128 →
      pcmStreamBit mem w b (pcmparse mem (pcmbase + w) (2 ^ b)) = false) := by
  obtain ⟨_, h2, h3, h4⟩ := pcmLoop_spec mem 128 129 w b 0 (by omega) (by omega) hw hb
  exact ⟨h2, fun n hn => h3 n hn, h4⟩

/-- A scan result is determined by the bits: two numbers that both are "the first zero bit
below 128, or 128" of the same bit sequences are equal. -/
theorem first_zero_unique (bit bit2 : Nat → Bool) (hbits : ∀ n, n < 128 → bit2 n = bit n)
    (r s : Nat) (hr : r ≤ 128) (hs : s ≤ 128)
    (hr1 : ∀ n, n < r → bit n = true) (hr0 : r < 128 → bit r = false)
    (hs1 : ∀ n, n < s → bit2 n = true) (hs0 : s < 128 → bit2 s = false) : r = s := by
  rcases Nat.lt_trichotomy r s with h | h | h
  · have h1 := hs1 r h
    rw [hbits r (by omega), hr0 (by omega)] at h1
    exact absurd h1 (by simp)
  · exact h
  · have h1 := hr1 s h
    rw [← hbits s (by omega), hs0 (by omega)] at h1
    exact absurd h1 (by simp)

/-! ## The loops of read -/

theorem pcmLoop_le (mem : Mem) :
    ∀ fuel address mask word k, k ≤ 128 → pcmLoop mem fuel address mask word k ≤ 128 := by
  intro fuel
  induction fuel with
  | zero => intro address mask word k hk; simpa [pcmLoop] using hk
  | succ f ih =>
    intro address mask word k hk
    rw [pcmLoop]
    by_cases hk128 : k < 128
    · have hk256 : (k + 1) % 256 = k + 1 := by omega
      simp only [hk128, ↓reduceIte, hk256]
      split
      · exact hk
      · split
        · exact ih _ _ _ _ (by omega)
        · exact ih _ _ _ _ (by omega)
    · simpa [hk128] using hk

theorem pcmparse_le (mem : Mem) (address mask : Nat) : pcmparse mem address mask ≤ 128 :=
  pcmLoop_le mem 129 address mask _ 0 (by decide)

theorem spiparse_le (mem : Mem) (address : Nat) : spiparse mem address ≤ 128 :=
  (spiparse_spec mem address).1

theorem advance_none_iterate (n a : Nat) : (advance none)^[n] a = a + 6 * n := by
  induction n generalizing a with
  | zero => rfl
  | succ n ih =>
    rw [Function.iterate_succ_apply, ih]
    simp only [advance]
    omega

theorem advance_some_iterate (base : Nat) (n a : Nat) (h1 : base ≤ a) (h2 : a < base + 16200) :
    (advance (some (base + 16200)))^[n] a = base + (a - base + 6 * n) % 16200 := by
  induction n generalizing a with
  | zero =>
    rw [Function.iterate_zero_apply]
    omega
  | succ n ih =>
    rw [Function.iterate_succ_apply]
    by_cases hwrap : a + 6 ≥ base + 16200
    · have : advance (some (base + 16200)) a = a + 6 - 16200 := by simp [advance, hwrap]
      rw [this, ih _ (by omega) (by omega)]
      omega
    · have : advance (some (base + 16200)) a = a + 6 := by simp [advance, hwrap]
      rw [this, ih _ (by omega) (by omega)]
      omega

theorem scanLoop_apply (parse : Nat → Nat) (wrap : Option Nat) (length : Nat) :
    ∀ fuel k address buffer i, length < k + 2 * fuel →
      scanLoop parse wrap length fuel k address buffer i =
        if k ≤ i ∧ i < length ∧ (i - k) % 2 = 0 then
          parse ((advance wrap)^[(i - k) / 2] address) % 256
        else buffer i := by
  intro fuel
  induction fuel with
  | zero =>
    intro k address buffer i hf
    rw [scanLoop, if_neg (by omega)]
  | succ f ih =>
    intro k address buffer i hf
    rw [scanLoop]
    by_cases hk : k < length
    · rw [if_pos hk, ih _ _ _ _ (by omega)]
      by_cases hik : i = k
      · subst hik
        rw [if_neg (by omega), if_pos (by omega)]
        simp [put_user]
      · by_cases hc : k + 2 ≤ i ∧ i < length ∧ (i - (k + 2)) % 2 = 0
        · rw [if_pos hc, if_pos (by omega), ← Function.iterate_succ_apply,
            show ((i - (k + 2)) / 2).succ = (i - k) / 2 by omega]
        · rw [if_neg hc, if_neg (by omega)]
          simp [put_user, hik]
    · rw [if_neg hk, if_neg (by omega)]

theorem read_of_wait (hw : Hardware) (mem : Mem) (fuel : Nat) (d : Driver) (tick : Nat)
    (buffer : Nat → Nat) (L time tick2 : Nat) (hL : L ≤ 2700)
    (hwait : waitStable hw (u32 (d.half ^^^ 1)) (middleOf d) fuel tick = some (time, tick2)) :
    read hw mem fuel d tick buffer L = some
      { ret := if verifyStable hw (u32 (d.half ^^^ 1)) (middleOf d) time tick2 then L else 0
        drv := { d with half := u32 (d.half ^^^ 1), middle := middleOf d, time := time }
        buffer :=
          if u32 (d.half ^^^ 1) = 0 then
            scanLoop (fun a => pcmparse mem a d.mask) none L (L + 1) 1 (pcmbase + d.pcmoff + 2)
              (scanLoop (spiparse mem) none L (L + 1) 0 (spibase + d.spioff + 2) buffer)
          else
            scanLoop (fun a => pcmparse mem a d.mask) (some pcmend) L (L + 1) 1
              (pcmbase + 8100 + d.pcmoff + 2)
              (scanLoop (spiparse mem) (some spiend) L (L + 1) 0 (spibase + 8100 + d.spioff + 2)
                buffer)
        tick := tick2 + 2 } := by
  have hL2 : ¬ L > 2700 := by omega
  unfold read
  simp only [hL2, ↓reduceIte, hwait]
  by_cases hh : u32 (d.half ^^^ 1) = 0
  · simp only [hh, ↓reduceIte]
    split <;> rfl
  · simp only [hh, ↓reduceIte]
    split <;> rfl

theorem spiend_eq : spiend = spibase + 16200 := by decide

theorem pcmend_eq : pcmend = pcmbase + 16200 := by decide

/-- Content of the caller's buffer after the two sample loops of the half `h`. -/
theorem scanned_buffer (mem : Mem) (d : Driver) (buffer : Nat → Nat) (L h : Nat)
    (hL : L ≤ 2700) (hs : d.spioff ≤ 2000) (hp : d.pcmoff ≤ 2000) (hh : h ≤ 1) (i : Nat) :
    (if h = 0 then
        scanLoop (fun a => pcmparse mem a d.mask) none L (L + 1) 1 (pcmbase + d.pcmoff + 2)
          (scanLoop (spiparse mem) none L (L + 1) 0 (spibase + d.spioff + 2) buffer)
      else
        scanLoop (fun a => pcmparse mem a d.mask) (some pcmend) L (L + 1) 1
          (pcmbase + 8100 + d.pcmoff + 2)
          (scanLoop (spiparse mem) (some spiend) L (L + 1) 0 (spibase + 8100 + d.spioff + 2)
            buffer)) i =
      if i < L then
        if i % 2 = 0 then spiparse mem (spibase + (8100 * h + d.spioff + 2 + 3 * i) % 16200)
        else pcmparse mem (pcmbase + (8100 * h + d.pcmoff + 2 + 3 * (i - 1)) % 16200) d.mask
      else buffer i := by
  have hspi : ∀ a, spiparse mem a % 256 = spiparse mem a :=
    fun a => Nat.mod_eq_of_lt (by have := spiparse_le mem a; omega)
  have hpcm : ∀ a, pcmparse mem a d.mask % 256 = pcmparse mem a d.mask :=
    fun a => Nat.mod_eq_of_lt (by have := pcmparse_le mem a d.mask; omega)
  have h01 : h = 0 ∨ h = 1 := by omega
  rcases h01 with rfl | rfl
  · rw [if_pos rfl, scanLoop_apply _ _ _ _ _ _ _ _ (by omega),
      scanLoop_apply _ _ _ _ _ _ _ _ (by omega)]
    by_cases hi : i < L
    · by_cases hpar : i % 2 = 0
      · have e : spibase + d.spioff + 2 + 6 * ((i - 0) / 2)
            = spibase + (8100 * 0 + d.spioff + 2 + 3 * i) % 16200 := by omega
        rw [if_neg (by omega), if_pos (by omega), if_pos hi, if_pos hpar, hspi,
          advance_none_iterate, e]
      · have e : pcmbase + d.pcmoff + 2 + 6 * ((i - 1) / 2)
            = pcmbase + (8100 * 0 + d.pcmoff + 2 + 3 * (i - 1)) % 16200 := by omega
        rw [if_pos (by omega), if_pos hi, if_neg hpar, hpcm, advance_none_iterate, e]
    · rw [if_neg (by omega), if_neg (by omega), if_neg hi]
  · rw [if_neg (by decide), scanLoop_apply _ _ _ _ _ _ _ _ (by omega),
      scanLoop_apply _ _ _ _ _ _ _ _ (by omega), spiend_eq, pcmend_eq]
    by_cases hi : i < L
    · by_cases hpar : i % 2 = 0
      · have e : spibase + (spibase + 8100 + d.spioff + 2 - spibase + 6 * ((i - 0) / 2)) % 16200
            = spibase + (8100 * 1 + d.spioff + 2 + 3 * i) % 16200 := by omega
        rw [if_neg (by omega), if_pos (by omega), if_pos hi, if_pos hpar, hspi,
          advance_some_iterate _ _ _ (by omega) (by omega), e]
      · have e : pcmbase + (pcmbase + 8100 + d.pcmoff + 2 - pcmbase + 6 * ((i - 1) / 2)) % 16200
            = pcmbase + (8100 * 1 + d.pcmoff + 2 + 3 * (i - 1)) % 16200 := by omega
        rw [if_pos (by omega), if_pos hi, if_neg hpar, hpcm,
          advance_some_iterate _ _ _ (by omega) (by omega), e]
    · rw [if_neg (by omega), if_neg (by omega), if_neg hi]

/-! ## The decoders: claims C1 to C5 -/

/-- C1: for every content of the channel-B ring, every start word `w < 16200` and every single
bit mask `2^b` with `b ≤ 31`, `pcmparse` returns the least `n < 128` such that bit `n` of the
bit stream is 0, and 128 when the first 128 stream bits are all 1: the result `r` is at most
128, every stream bit before `r` is 1, and bit `r` is 0 when `r < 128`.  The stream starts at
bit `b` of word `w`, runs down to bit 0 and continues at bit 31 of the next word, word 16199
being followed by word 0.  In particular, started at word 0 with mask bit 31 and that bit
clear, the result is 0. -/
theorem pcmparse_first_zero (mem : Mem) (w b : Nat) (hw : w < 16200) (hb : b ≤ 31) :
    (pcmparse mem (pcmbase + w) (2 ^ b) ≤ 128 ∧
      (∀ n, n < pcmparse mem (pcmbase + w) (2 ^ b) →
        (load mem (pcmbase + (w + (31 - b + n) / 32) % 16200)).testBit
          (31 - (31 - b + n) % 32) = true) ∧
      (pcmparse mem (pcmbase + w) (2 ^ b) < 128 →
        (load mem (pcmbase + (w + (31 - b + pcmparse mem (pcmbase + w) (2 ^ b)) / 32) % 16200)).testBit
          (31 - (31 - b + pcmparse mem (pcmbase + w) (2 ^ b)) % 32) = false)) ∧
    ((load mem pcmbase).testBit 31 = false → pcmparse mem pcmbase (2 ^ 31) = 0) := by
  refine ⟨pcmparse_spec mem w b hw hb, ?_⟩
  intro hclear
  obtain ⟨_, h1, _⟩ := pcmparse_spec mem 0 31 (by decide) (le_refl _)
  by_contra hne
  have := h1 0 (Nat.pos_of_ne_zero hne)
  rw [pcmStreamBit_zero mem 0 31 (by decide) (le_refl _), Nat.add_zero, hclear] at this
  exact absurd this (by simp)

/-- Instance of C1: a start in the last ring word at mask bit 3, the ring holding ones except
for the low four bits of ring word 0. -/
theorem pcmparse_first_zero_witness :
    (16199 < 16200 ∧ 3 ≤ 31) ∧
    pcmparse (fun a => if a = pcmbase then 0xFFFFFFF0 else 0xFFFFFFFF) (pcmbase + 16199) (2 ^ 3)
      ≤ 128 ∧
    ((load (fun a => if a = pcmbase then 0xFFFFFFF0 else 0xFFFFFFFF) pcmbase).testBit 31 = false →
      pcmparse (fun a => if a = pcmbase then 0xFFFFFFF0 else 0xFFFFFFFF) pcmbase (2 ^ 31) = 0) :=
  ⟨⟨by decide, by decide⟩,
    (pcmparse_first_zero (fun a => if a = pcmbase then 0xFFFFFFF0 else 0xFFFFFFFF) 16199 3
      (by decide) (by decide)).1.1,
    (pcmparse_first_zero (fun a => if a = pcmbase then 0xFFFFFFF0 else 0xFFFFFFFF) 16199 3
      (by decide) (by decide)).2⟩

/-- C2: `pcmparse` is invariant under rotation of the circular buffer.  When the ring of
`mem2` is the ring of `mem` rotated by `r` words (ring word `(i + r) mod 16200` of `mem2` is
ring word `i` of `mem`), decoding `mem2` from ring word `(w + r) mod 16200` gives the result
of decoding `mem` from ring word `w`, for every single bit mask. -/
theorem pcmparse_rotation_invariant (mem mem2 : Mem) (r w b : Nat) (hw : w < 16200)
    (hb : b ≤ 31)
    (hrot : ∀ i, i < 16200 → load mem2 (pcmbase + (i + r) % 16200) = load mem (pcmbase + i)) :
    pcmparse mem2 (pcmbase + (w + r) % 16200) (2 ^ b) = pcmparse mem (pcmbase + w) (2 ^ b) := by
  obtain ⟨a1, a2, a3⟩ := pcmparse_spec mem w b hw hb
  obtain ⟨b1, b2, b3⟩ := pcmparse_spec mem2 ((w + r) % 16200) b (Nat.mod_lt _ (by decide)) hb
  refine first_zero_unique (pcmStreamBit mem2 ((w + r) % 16200) b) (pcmStreamBit mem w b) ?_
    _ _ b1 a1 b2 b3 a2 a3
  intro n _
  unfold pcmStreamBit
  rw [← hrot ((w + (31 - b + n) / 32) % 16200) (Nat.mod_lt _ (by decide)),
    show ((w + (31 - b + n) / 32) % 16200 + r) % 16200
      = ((w + r) % 16200 + (31 - b + n) / 32) % 16200 by omega]

/-- Instance of C2: a ring of ones whose only zero bits are the low four bits of ring word 0,
and the same ring rotated by one word, decoded from the last word and from word 0. -/
theorem pcmparse_rotation_invariant_witness :
    (16199 < 16200 ∧ 3 ≤ 31 ∧
      ∀ i, i < 16200 →
        load (fun a => if a = pcmbase + 1 then 0xFFFFFFF0 else 0xFFFFFFFF)
            (pcmbase + (i + 1) % 16200)
          = load (fun a => if a = pcmbase then 0xFFFFFFF0 else 0xFFFFFFFF) (pcmbase + i)) ∧
    pcmparse (fun a => if a = pcmbase + 1 then 0xFFFFFFF0 else 0xFFFFFFFF)
        (pcmbase + (16199 + 1) % 16200) (2 ^ 3)
      = pcmparse (fun a => if a = pcmbase then 0xFFFFFFF0 else 0xFFFFFFFF)
        (pcmbase + 16199) (2 ^ 3) := by
  have hrot : ∀ i, i < 16200 →
      load (fun a => if a = pcmbase + 1 then 0xFFFFFFF0 else 0xFFFFFFFF)
          (pcmbase + (i + 1) % 16200)
        = load (fun a => if a = pcmbase then 0xFFFFFFF0 else 0xFFFFFFFF) (pcmbase + i) := by
    intro i hi
    unfold load
    by_cases h0 : i = 0
    · subst h0; rfl
    · beta_reduce
      rw [if_neg (show ¬ (pcmbase + (i + 1) % 16200 = pcmbase + 1) by omega),
        if_neg (show ¬ (pcmbase + i = pcmbase) by omega)]
  exact ⟨⟨by decide, by decide, hrot⟩,
    pcmparse_rotation_invariant _ _ 1 16199 3 (by decide) (by decide) hrot⟩

/-- C3: a start in the last ring word (index 16199) with mask `2^b`, the bits `b..0` of that
word being all 1, does not end at the buffer end.  The result is `min 128 (b + 1 + c)` where
`c` is the number of consecutive 1 bits read from bit 31 of ring word 0 onward, most
significant bit first and word by word (128 when that run never ends); so with the first
word all ones too the result is at least `min 128 (b + 33)`. -/
theorem pcmparse_continues_past_end (mem : Mem) (b : Nat) (hb : b ≤ 31)
    (hlast : ∀ j, j ≤ b → (load mem (pcmbase + 16199)).testBit j = true) :
    (∀ c, (∀ i, i < c → (load mem (pcmbase + (i / 32) % 16200)).testBit (31 - i % 32) = true) →
        (load mem (pcmbase + (c / 32) % 16200)).testBit (31 - c % 32) = false →
        pcmparse mem (pcmbase + 16199) (2 ^ b) = min 128 (b + 1 + c)) ∧
    ((∀ i, (load mem (pcmbase + (i / 32) % 16200)).testBit (31 - i % 32) = true) →
        pcmparse mem (pcmbase + 16199) (2 ^ b) = 128) ∧
    ((∀ j, j < 32 → (load mem pcmbase).testBit j = true) →
        min 128 (b + 33) ≤ pcmparse mem (pcmbase + 16199) (2 ^ b)) := by
  obtain ⟨a1, a2, a3⟩ := pcmparse_spec mem 16199 b (by decide) hb
  have hlow : ∀ n, n ≤ b → pcmStreamBit mem 16199 b n = true := by
    intro n hn
    unfold pcmStreamBit
    rw [show (16199 + (31 - b + n) / 32) % 16200 = 16199 by omega,
      show 31 - (31 - b + n) % 32 = b - n by omega]
    exact hlast _ (by omega)
  have hhigh : ∀ i, pcmStreamBit mem 16199 b (b + 1 + i)
      = (load mem (pcmbase + (i / 32) % 16200)).testBit (31 - i % 32) := by
    intro i
    unfold pcmStreamBit
    rw [show (16199 + (31 - b + (b + 1 + i)) / 32) % 16200 = (i / 32) % 16200 by omega,
      show (31 - b + (b + 1 + i)) % 32 = i % 32 by omega]
  refine ⟨?_, ?_, ?_⟩
  · intro c hc1 hc0
    refine first_zero_unique (pcmStreamBit mem 16199 b) (pcmStreamBit mem 16199 b)
      (fun _ _ => rfl) _ _ a1 (Nat.min_le_left _ _) a2 a3 ?_ ?_
    · intro n hn
      by_cases hnb : n ≤ b
      · exact hlow n hnb
      · rw [show n = b + 1 + (n - (b + 1)) by omega, hhigh]
        exact hc1 _ (by omega)
    · intro hlt
      rw [show min 128 (b + 1 + c) = b + 1 + c by omega, hhigh]
      exact hc0
  · intro hall
    by_contra hne
    have hlt : pcmparse mem (pcmbase + 16199) (2 ^ b) < 128 := by omega
    have h0 := a3 hlt
    by_cases hnb : pcmparse mem (pcmbase + 16199) (2 ^ b) ≤ b
    · rw [hlow _ hnb] at h0
      exact absurd h0 (by simp)
    · rw [show pcmparse mem (pcmbase + 16199) (2 ^ b)
          = b + 1 + (pcmparse mem (pcmbase + 16199) (2 ^ b) - (b + 1)) by omega, hhigh, hall] at h0
      exact absurd h0 (by simp)
  · intro hfirst
    by_contra hlt
    have hlt2 : pcmparse mem (pcmbase + 16199) (2 ^ b) < b + 33 := by omega
    have h0 := a3 (by omega)
    by_cases hnb : pcmparse mem (pcmbase + 16199) (2 ^ b) ≤ b
    · rw [hlow _ hnb] at h0
      exact absurd h0 (by simp)
    · rw [show pcmparse mem (pcmbase + 16199) (2 ^ b)
          = b + 1 + (pcmparse mem (pcmbase + 16199) (2 ^ b) - (b + 1)) by omega, hhigh,
        show (pcmparse mem (pcmbase + 16199) (2 ^ b) - (b + 1)) / 32 % 16200 = 0 by omega,
        Nat.add_zero, hfirst _ (by omega)] at h0
      exact absurd h0 (by simp)

/-- Instance of C3: mask bit 3 in the last ring word, ring word 0 holding 28 leading ones; the
decoder counts the 4 bits of the last word and the 28 leading ones of word 0. -/
theorem pcmparse_continues_past_end_witness :
    (3 ≤ 31 ∧
      ∀ j, j ≤ 3 →
        (load (fun a => if a = pcmbase then 0xFFFFFFF0 else 0xFFFFFFFF)
          (pcmbase + 16199)).testBit j = true) ∧
    pcmparse (fun a => if a = pcmbase then 0xFFFFFFF0 else 0xFFFFFFFF) (pcmbase + 16199) (2 ^ 3)
      = min 128 (3 + 1 + 28) :=
  ⟨⟨by decide, by decide⟩,
    (pcmparse_continues_past_end (fun a => if a = pcmbase then 0xFFFFFFF0 else 0xFFFFFFFF) 3
      (by decide) (by decide)).1 28 (by decide) (by decide)⟩

/-- C4: for every window of 4 consecutive words, `spiparse` returns a value `v` in `[0,128]`;
`v = 128` exactly when all 128 bits of the window are 1; and when `v < 128` the bit visited at
step `v` of the scan is 0 while every bit visited at steps `0..v-1` is 1.  The scan visits the
words in ascending order, in a word the bytes from low to high, in a byte bit 7 down to
bit 0. -/
theorem spiparse_scan_result (mem : Mem) (address : Nat) :
    spiparse mem address ≤ 128 ∧
    (spiparse mem address = 128 ↔
      ∀ i, i < 4 → ∀ j, j < 32 → (load mem (address + i)).testBit j = true) ∧
    (spiparse mem address < 128 →
      spiVisit mem address (spiparse mem address) = false ∧
      ∀ n, n < spiparse mem address → spiVisit mem address n = true) := by
  obtain ⟨a1, a2, a3⟩ := spiparse_spec mem address
  refine ⟨a1, ⟨?_, ?_⟩, fun hlt => ⟨a3 hlt, a2⟩⟩
  · intro h128 i hi j hj
    have h := a2 (32 * i + 8 * (j / 8) + (7 - j % 8)) (by omega)
    unfold spiVisit at h
    rw [show (32 * i + 8 * (j / 8) + (7 - j % 8)) / 32 = i by omega,
      show 8 * ((32 * i + 8 * (j / 8) + (7 - j % 8)) % 32 / 8)
        + (7 - (32 * i + 8 * (j / 8) + (7 - j % 8)) % 8) = j by omega] at h
    exact h
  · intro hall
    by_contra hne
    have h0 := a3 (by omega)
    unfold spiVisit at h0
    rw [hall _ (by omega) _ (by omega)] at h0
    exact absurd h0 (by simp)

/-- C5, the claim as stated fails: in this window the only zero bit is bit 10 of word 1,
position 42 when the bits of a word are numbered from the least significant one, and
`spiparse` returns 45. -/
theorem spiparse_position_42_counterexample :
    (∀ n, n < 128 →
      ((load (fun a => if a = 61 then 0xFFFFFBFF else 0xFFFFFFFF) (60 + n / 32)).testBit (n % 32)
        = false ↔ n = 42)) ∧
    spiparse (fun a => if a = 61 then 0xFFFFFBFF else 0xFFFFFFFF) 60 = 45 := by
  constructor
  · decide
  · decide

/-- C5 as amended: `spiparse` examines the bits most significant bit first within each byte,
the bytes of a word from low to high and the words in ascending order; it returns the least
`n < 128` such that bit `8 * (n mod 32 div 8) + 7 - n mod 8` of word `n div 32` is 0, or 128
if there is none.  A window whose only zero bit is bit 10 of word 1 decodes to 45. -/
theorem spiparse_msb_first_in_byte (mem : Mem) (address : Nat) :
    (spiparse mem address ≤ 128 ∧
      (∀ n, n < spiparse mem address →
        (load mem (address + n / 32)).testBit (8 * (n % 32 / 8) + (7 - n % 8)) = true) ∧
      (spiparse mem address < 128 →
        (load mem (address + spiparse mem address / 32)).testBit
          (8 * (spiparse mem address % 32 / 8) + (7 - spiparse mem address % 8)) = false)) ∧
    ((∀ i, i < 4 → ∀ j, j < 32 →
        ((load mem (address + i)).testBit j = false ↔ (i = 1 ∧ j = 10))) →
      spiparse mem address = 45) := by
  obtain ⟨a1, a2, a3⟩ := spiparse_spec mem address
  refine ⟨⟨a1, a2, a3⟩, ?_⟩
  intro honly
  unfold spiVisit at a2 a3
  rcases Nat.lt_trichotomy (spiparse mem address) 45 with hlt | heq | hgt
  · have h0 := a3 (by omega)
    have := (honly _ (by omega) _ (by omega)).1 h0
    omega
  · exact heq
  · have h1 := a2 45 hgt
    have h0 := (honly 1 (by decide) 10 (by decide)).2 ⟨rfl, rfl⟩
    rw [show 45 / 32 = 1 by decide, show 8 * (45 % 32 / 8) + (7 - 45 % 8) = 10 by decide, h0] at h1
    exact absurd h1 (by simp)

theorem verifyStable_iff (hw : Hardware) (half middle time tick : Nat) :
    verifyStable hw half middle time tick = true ↔
      (u32 (u32 (hw.timer tick) + 2 ^ 32 - time) < 20000 ∧
        if half = 0 then u32 (hw.dmapos (tick + 1)) > middle
        else u32 (hw.dmapos (tick + 1)) < middle) := by
  unfold verifyStable
  by_cases hh : half = 0
  · simp [hh]
  · simp [hh]

theorem read_oversized (hw : Hardware) (mem : Mem) (fuel : Nat) (d : Driver) (tick : Nat)
    (buffer : Nat → Nat) (L : Nat) (hL : 2700 < L) :
    read hw mem fuel d tick buffer L = some
      { ret := 0
        drv := { d with half := u32 (d.half ^^^ 1), middle := middleOf d }
        buffer := buffer
        tick := tick } := by
  unfold read
  simp only [gt_iff_lt, hL, ↓reduceIte]

/-! ## The read handler: claims C6 to C10 -/

/-- C6: for a read of length `L ≤ 2700` of half `h` (0 top, 1 bottom) with offsets at most
2000, once the stability wait has ended the call returns and, for every even `k < L`, the byte
at output index `k` is `spiparse` at ring word `(8100 h + spioff + 2 + 3 k) mod 16200` of
channel A, for every odd `k < L` it is `pcmparse` with the stored mask at ring word
`(8100 h + pcmoff + 2 + 3 (k - 1)) mod 16200` of channel B, and every such byte is at most
128. -/
theorem read_interleaves_samples (hw : Hardware) (mem : Mem) (fuel : Nat) (d : Driver)
    (tick : Nat) (buffer : Nat → Nat) (L h time tick2 : Nat)
    (hL : L ≤ 2700) (hs : d.spioff ≤ 2000) (hp : d.pcmoff ≤ 2000) (hh : h ≤ 1)
    (htarget : u32 (d.half ^^^ 1) = h)
    (hwait : waitStable hw h (middleOf d) fuel tick = some (time, tick2)) :
    ∃ o, read hw mem fuel d tick buffer L = some o ∧
      (∀ k, k < L → k % 2 = 0 →
        o.buffer k = spiparse mem (spibase + (8100 * h + d.spioff + 2 + 3 * k) % 16200)) ∧
      (∀ k, k < L → k % 2 = 1 →
        o.buffer k =
          pcmparse mem (pcmbase + (8100 * h + d.pcmoff + 2 + 3 * (k - 1)) % 16200) d.mask) ∧
      (∀ k, k < L → o.buffer k ≤ 128) := by
  subst htarget
  refine ⟨_, read_of_wait hw mem fuel d tick buffer L time tick2 hL hwait, ?_, ?_, ?_⟩
  · intro k hk hpar
    dsimp only
    rw [scanned_buffer mem d buffer L _ hL hs hp hh k, if_pos hk, if_pos hpar]
  · intro k hk hpar
    dsimp only
    rw [scanned_buffer mem d buffer L _ hL hs hp hh k, if_pos hk, if_neg (by omega)]
  · intro k hk
    dsimp only
    rw [scanned_buffer mem d buffer L _ hL hs hp hh k, if_pos hk]
    split
    · exact spiparse_le _ _
    · exact pcmparse_le _ _ _

/-- Instance of C6: the first read after start up, of full length, on a write position that
rests in the bottom half. -/
theorem read_interleaves_samples_witness :
    (2700 ≤ 2700 ∧ bootDriver.spioff ≤ 2000 ∧ bootDriver.pcmoff ≤ 2000 ∧ 0 ≤ 1 ∧
      u32 (bootDriver.half ^^^ 1) = 0 ∧
      waitStable steadyHardware 0 (middleOf bootDriver) 1 0 = some (0, 2)) ∧
    ∃ o, read steadyHardware (fun a => a) 1 bootDriver 0 (fun _ => 0) 2700 = some o ∧
      (∀ k, k < 2700 → k % 2 = 0 →
        o.buffer k = spiparse (fun a => a)
          (spibase + (8100 * 0 + bootDriver.spioff + 2 + 3 * k) % 16200)) ∧
      (∀ k, k < 2700 → k % 2 = 1 →
        o.buffer k = pcmparse (fun a => a)
          (pcmbase + (8100 * 0 + bootDriver.pcmoff + 2 + 3 * (k - 1)) % 16200) bootDriver.mask) ∧
      (∀ k, k < 2700 → o.buffer k ≤ 128) :=
  ⟨⟨by decide, by decide, by decide, by decide, by decide, by decide⟩,
    read_interleaves_samples steadyHardware (fun a => a) 1 bootDriver 0 (fun _ => 0) 2700 0 0 2
      (by decide) (by decide) (by decide) (by decide) (by decide) (by decide)⟩

/-- C7, the claim as stated fails at length 0: the verification fails (the timer has moved by
60000 units since the end of the wait) and the return value 0 is the requested length. -/
theorem read_zero_length_counterexample :
    (0 ≤ 2700 ∧ waitStable slowHardware (u32 (bootDriver.half ^^^ 1)) (middleOf bootDriver) 1 0
        = some (0, 2)) ∧
    Option.map (fun o => o.ret) (read slowHardware (fun _ => 0) 1 bootDriver 0 (fun _ => 0) 0)
        = some 0 ∧
    ¬ (u32 (u32 (slowHardware.timer 2) + 2 ^ 32 - 0) < 20000) := by
  refine ⟨⟨by decide, by decide⟩, by decide, by decide⟩

/-- C7 as amended: for a read of length `L ≤ 2700` whose stability wait ends, the return value
is `L` when, after the scan, both (a) the timer value minus the value recorded at the end of
the wait, as an unsigned 32-bit difference, is below 20000 and (b) the write position is
strictly above `middle` for the top half, strictly below `middle` for the bottom half; the
return value is 0 otherwise.  So it is `L` or 0, and for `L ≥ 1` it is `L` exactly when (a)
and (b) hold.  `middle` is `bus + 240 + 4 * spioff + 32400` reduced modulo `2^32`. -/
theorem read_return_value (hw : Hardware) (mem : Mem) (fuel : Nat) (d : Driver) (tick : Nat)
    (buffer : Nat → Nat) (L time tick2 : Nat) (hL : L ≤ 2700)
    (hwait : waitStable hw (u32 (d.half ^^^ 1)) (middleOf d) fuel tick = some (time, tick2)) :
    ∃ o, read hw mem fuel d tick buffer L = some o ∧
      (o.ret = L ∨ o.ret = 0) ∧
      ((u32 (u32 (hw.timer tick2) + 2 ^ 32 - time) < 20000 ∧
          (if u32 (d.half ^^^ 1) = 0 then u32 (hw.dmapos (tick2 + 1)) > middleOf d
           else u32 (hw.dmapos (tick2 + 1)) < middleOf d)) → o.ret = L) ∧
      (¬ (u32 (u32 (hw.timer tick2) + 2 ^ 32 - time) < 20000 ∧
          (if u32 (d.half ^^^ 1) = 0 then u32 (hw.dmapos (tick2 + 1)) > middleOf d
           else u32 (hw.dmapos (tick2 + 1)) < middleOf d)) → o.ret = 0) ∧
      (0 < L →
        (o.ret = L ↔
          (u32 (u32 (hw.timer tick2) + 2 ^ 32 - time) < 20000 ∧
            (if u32 (d.half ^^^ 1) = 0 then u32 (hw.dmapos (tick2 + 1)) > middleOf d
             else u32 (hw.dmapos (tick2 + 1)) < middleOf d)))) ∧
      middleOf d = (d.bus + 240 + 4 * d.spioff + 32400) % 2 ^ 32 := by
  refine ⟨_, read_of_wait hw mem fuel d tick buffer L time tick2 hL hwait, ?_⟩
  dsimp only
  have hiff := verifyStable_iff hw (u32 (d.half ^^^ 1)) (middleOf d) time tick2
  have hmid : middleOf d = (d.bus + 240 + 4 * d.spioff + 32400) % 2 ^ 32 := by
    unfold middleOf u32
    rw [Nat.mul_comm d.spioff 4]
  by_cases hv : verifyStable hw (u32 (d.half ^^^ 1)) (middleOf d) time tick2 = true
  · have hc := hiff.1 hv
    rw [if_pos hv]
    exact ⟨Or.inl rfl, fun _ => rfl, fun hn => absurd hc hn, fun _ => ⟨fun _ => hc, fun _ => rfl⟩,
      hmid⟩
  · have hc := fun h => hv (hiff.2 h)
    rw [if_neg hv]
    exact ⟨Or.inr rfl, fun h => absurd h hc, fun _ => rfl,
      fun hpos => ⟨fun h => by omega, fun h => absurd h hc⟩, hmid⟩

/-- Instance of C7 as amended: the first read after start up, of full length, on steady
hardware. -/
theorem read_return_value_witness :
    (2700 ≤ 2700 ∧
      waitStable steadyHardware (u32 (bootDriver.half ^^^ 1)) (middleOf bootDriver) 1 0
        = some (0, 2)) ∧
    ∃ o, read steadyHardware (fun a => a) 1 bootDriver 0 (fun _ => 0) 2700 = some o ∧
      (o.ret = 2700 ∨ o.ret = 0) :=
  ⟨⟨by decide, by decide⟩,
    (read_return_value steadyHardware (fun a => a) 1 bootDriver 0 (fun _ => 0) 2700 0 2
      (by decide) (by decide)).imp (fun _ h => ⟨h.1, h.2.1⟩)⟩

/-- C8, the claim as stated fails: the verification of this read of length 2 fails and the call
returns 0, yet the bytes 0 and 1 of the caller's buffer, 7 before the call, hold the decoded
samples 0 after it. -/
theorem read_failed_overwrites_counterexample :
    verifyStable slowHardware (u32 (bootDriver.half ^^^ 1)) (middleOf bootDriver) 0 2 = false ∧
    Option.map (fun o => (o.ret, o.buffer 0, o.buffer 1))
        (read slowHardware (fun _ => 0) 1 bootDriver 0 (fun _ => 7) 2)
      = some (0, 0, 0) := by
  constructor
  · decide
  · decide

/-- C8 as amended: when the verification after the scan fails, the call returns 0, but the
decoded samples are not taken back: the bytes of the caller's buffer at the indices below `L`
hold the samples decoded by the failed read (channel A at even, channel B at odd indices), and
only the bytes from index `L` on are as before the call. -/
theorem read_failed_keeps_samples (hw : Hardware) (mem : Mem) (fuel : Nat) (d : Driver)
    (tick : Nat) (buffer : Nat → Nat) (L h time tick2 : Nat)
    (hL : L ≤ 2700) (hs : d.spioff ≤ 2000) (hp : d.pcmoff ≤ 2000) (hh : h ≤ 1)
    (htarget : u32 (d.half ^^^ 1) = h)
    (hwait : waitStable hw h (middleOf d) fuel tick = some (time, tick2))
    (hfail : verifyStable hw h (middleOf d) time tick2 = false) :
    ∃ o, read hw mem fuel d tick buffer L = some o ∧
      o.ret = 0 ∧
      (∀ k, L ≤ k → o.buffer k = buffer k) ∧
      (∀ k, k < L →
        o.buffer k =
          if k % 2 = 0 then spiparse mem (spibase + (8100 * h + d.spioff + 2 + 3 * k) % 16200)
          else pcmparse mem (pcmbase + (8100 * h + d.pcmoff + 2 + 3 * (k - 1)) % 16200) d.mask) := by
  subst htarget
  refine ⟨_, read_of_wait hw mem fuel d tick buffer L time tick2 hL hwait, ?_, ?_, ?_⟩
  · dsimp only
    rw [hfail]
    rfl
  · intro k hk
    dsimp only
    rw [scanned_buffer mem d buffer L _ hL hs hp hh k, if_neg (by omega)]
  · intro k hk
    dsimp only
    rw [scanned_buffer mem d buffer L _ hL hs hp hh k, if_pos hk]

/-- Instance of C8 as amended: the failing read of length 2 on slow hardware. -/
theorem read_failed_keeps_samples_witness :
    (2 ≤ 2700 ∧ bootDriver.spioff ≤ 2000 ∧ bootDriver.pcmoff ≤ 2000 ∧ 0 ≤ 1 ∧
      u32 (bootDriver.half ^^^ 1) = 0 ∧
      waitStable slowHardware 0 (middleOf bootDriver) 1 0 = some (0, 2) ∧
      verifyStable slowHardware 0 (middleOf bootDriver) 0 2 = false) ∧
    ∃ o, read slowHardware (fun _ => 0) 1 bootDriver 0 (fun _ => 7) 2 = some o ∧
      o.ret = 0 ∧ (∀ k, 2 ≤ k → o.buffer k = 7) :=
  ⟨⟨by decide, by decide, by decide, by decide, by decide, by decide, by decide⟩,
    (read_failed_keeps_samples slowHardware (fun _ => 0) 1 bootDriver 0 (fun _ => 7) 2 0 0 2
      (by decide) (by decide) (by decide) (by decide) (by decide) (by decide) (by decide)).imp
      (fun _ h => ⟨h.1, h.2.1, h.2.2.1⟩)⟩

/-- C9: for every requested length above 2700, `read` returns 0 at once, whatever the fuel:
it issues no register read (the count of `ioread32` is unchanged), stores no byte to the
caller's buffer, and its outcome is the same for every content of the capture region and
every behaviour of the timer and of the write position register, which it therefore does not
read. -/
theorem read_oversized_touches_nothing (hw hw2 : Hardware) (mem mem2 : Mem) (fuel fuel2 : Nat)
    (d : Driver) (tick : Nat) (buffer : Nat → Nat) (L : Nat) (hL : 2700 < L) :
    ∃ o, read hw mem fuel d tick buffer L = some o ∧
      o.ret = 0 ∧ o.buffer = buffer ∧ o.tick = tick ∧
      read hw2 mem2 fuel2 d tick buffer L = some o :=
  ⟨_, read_oversized hw mem fuel d tick buffer L hL, rfl, rfl, rfl,
    read_oversized hw2 mem2 fuel2 d tick buffer L hL⟩

/-- Instance of C9: length 2701, without fuel. -/
theorem read_oversized_touches_nothing_witness :
    2700 < 2701 ∧
    ∃ o, read steadyHardware (fun a => a) 0 bootDriver 0 (fun _ => 7) 2701 = some o ∧
      o.ret = 0 ∧ o.buffer = (fun _ => 7) ∧ o.tick = 0 ∧
      read slowHardware (fun _ => 0) 5 bootDriver 0 (fun _ => 7) 2701 = some o :=
  ⟨by decide,
    read_oversized_touches_nothing steadyHardware slowHardware (fun a => a) (fun _ => 0) 0 5
      bootDriver 0 (fun _ => 7) 2701 (by decide)⟩

/-- C10, the claim as stated fails: after start up `half` is 1; the rejected call of length
2701 returns 0 and leaves `half` at 0. -/
theorem read_oversized_flips_half_counterexample :
    bootDriver.half = 1 ∧
    Option.map (fun o => (o.ret, o.drv.half))
        (read steadyHardware (fun _ => 0) 0 bootDriver 0 (fun _ => 0) 2701)
      = some (0, 0) := by
  constructor
  · decide
  · decide

/-- C10 as amended: an oversized request (length above 2700) returns 0 and leaves the
calibration values `spioff`, `pcmoff`, `mask`, the bus address, the recorded `time`, the
caller's buffer and the hardware untouched, but it does flip the read cursor `half` (and sets
`middle`): with `half` 0 or 1 before the call, `half` is the other value after it, so the next
read targets the half opposite to the one it would have targeted without the rejected call. -/
theorem read_oversized_flips_half (hw : Hardware) (mem : Mem) (fuel : Nat) (d : Driver)
    (tick : Nat) (buffer : Nat → Nat) (L : Nat) (hL : 2700 < L) :
    ∃ o, read hw mem fuel d tick buffer L = some o ∧
      o.ret = 0 ∧
      o.drv.spioff = d.spioff ∧ o.drv.pcmoff = d.pcmoff ∧ o.drv.mask = d.mask ∧
      o.drv.bus = d.bus ∧ o.drv.time = d.time ∧ o.buffer = buffer ∧ o.tick = tick ∧
      o.drv.half = u32 (d.half ^^^ 1) ∧ o.drv.middle = middleOf d ∧
      (d.half ≤ 1 → o.drv.half = 1 - d.half ∧ o.drv.half ≠ d.half ∧
        u32 (o.drv.half ^^^ 1) = d.half ∧ u32 (o.drv.half ^^^ 1) ≠ u32 (d.half ^^^ 1)) := by
  refine ⟨_, read_oversized hw mem fuel d tick buffer L hL, rfl, rfl, rfl, rfl, rfl, rfl, rfl,
    rfl, rfl, rfl, ?_⟩
  intro hhalf
  dsimp only
  have h01 : d.half = 0 ∨ d.half = 1 := by omega
  rcases h01 with h0 | h1
  · rw [h0]; decide
  · rw [h1]; decide

/-- Instance of C10 as amended: length 2701 right after start up. -/
theorem read_oversized_flips_half_witness :
    2700 < 2701 ∧
    ∃ o, read steadyHardware (fun a => a) 0 bootDriver 0 (fun _ => 7) 2701 = some o ∧
      o.ret = 0 ∧ o.drv.half = u32 (bootDriver.half ^^^ 1) :=
  ⟨by decide,
    (read_oversized_flips_half steadyHardware (fun a => a) 0 bootDriver 0 (fun _ => 7) 2701
      (by decide)).imp (fun _ h => ⟨h.1, h.2.1, h.2.2.2.2.2.2.2.2.2.1⟩)⟩

/-! ## The scans of offset -/

theorem firstNonzero_spec (mem : Mem) (base : Nat) :
    ∀ r fuel j, j + r = 2000 → r < fuel →
      j ≤ firstNonzero mem base fuel j ∧ firstNonzero mem base fuel j ≤ 2000 ∧
      (∀ i, j ≤ i → i < firstNonzero mem base fuel j → load mem (base + i) = 0) ∧
      (firstNonzero mem base fuel j < 2000 →
        load mem (base + firstNonzero mem base fuel j) ≠ 0) := by
  intro r
  induction r with
  | zero =>
    intro fuel j hj hf
    obtain ⟨f, rfl⟩ : ∃ f, fuel = f + 1 := ⟨fuel - 1, by omega⟩
    have hj2 : ¬ j < 2000 := by omega
    rw [firstNonzero, if_neg hj2]
    exact ⟨le_refl _, by omega, fun i h1 h2 => by omega, fun h => absurd h hj2⟩
  | succ r ih =>
    intro fuel j hj hf
    obtain ⟨f, rfl⟩ : ∃ f, fuel = f + 1 := ⟨fuel - 1, by omega⟩
    have hj2 : j < 2000 := by omega
    rw [firstNonzero, if_pos hj2]
    by_cases hz : load mem (base + j) ≠ 0
    · rw [if_pos hz]
      exact ⟨le_refl _, by omega, fun i h1 h2 => by omega, fun _ => hz⟩
    · rw [if_neg hz]
      obtain ⟨i1, i2, i3, i4⟩ := ih f (j + 1) (by omega) (by omega)
      refine ⟨by omega, i2, ?_, i4⟩
      intro i h1 h2
      by_cases e : i = j
      · rw [e]; simpa using hz
      · exact i3 i (by omega) h2

/-- Characterisation of the raw offset found by a scan of `offset`. -/
theorem firstNonzero_scan (mem : Mem) (base : Nat) :
    firstNonzero mem base 2001 0 ≤ 2000 ∧
    (∀ i, i < firstNonzero mem base 2001 0 → load mem (base + i) = 0) ∧
    (firstNonzero mem base 2001 0 < 2000 →
      load mem (base + firstNonzero mem base 2001 0) ≠ 0) := by
  obtain ⟨_, h2, h3, h4⟩ := firstNonzero_spec mem base 2000 2001 0 (by omega) (by omega)
  exact ⟨h2, fun i hi => h3 i (Nat.zero_le _) hi, h4⟩

theorem firstNonzero_of_at (mem : Mem) (base a : Nat) (h : FirstNonzeroAt mem base a) :
    firstNonzero mem base 2001 0 = a := by
  obtain ⟨ha, hzero, hone⟩ := h
  obtain ⟨h1, h2, h3⟩ := firstNonzero_scan mem base
  rcases Nat.lt_trichotomy (firstNonzero mem base 2001 0) a with hlt | heq | hgt
  · exact absurd (hzero _ hlt) (h3 (by omega))
  · exact heq
  · exact absurd (h2 a hgt) hone

theorem firstNonzero_of_zero (mem : Mem) (base : Nat)
    (h : ∀ j, j < 2000 → load mem (base + j) = 0) : firstNonzero mem base 2001 0 = 2000 := by
  obtain ⟨h1, _, h3⟩ := firstNonzero_scan mem base
  by_contra hne
  have hlt : firstNonzero mem base 2001 0 < 2000 := by omega
  exact h3 hlt (h _ hlt)

theorem reduceOffsets_eq (a b : Nat) (ha : a < 2 ^ 32) (hb : b < 2 ^ 32) :
    reduceOffsets a b = (a - 6 * (min a b / 6), b - 6 * (min a b / 6)) := by
  unfold reduceOffsets u32
  by_cases hlt : b < a
  · rw [if_pos hlt, show min a b = b by omega]
    simp only [Prod.mk.injEq]
    constructor <;> omega
  · rw [if_neg hlt, show min a b = a by omega]
    simp only [Prod.mk.injEq]
    constructor <;> omega

theorem maskLoop_zero (word fuel : Nat) : maskLoop word fuel 0 = 0 := by
  cases fuel <;> simp [maskLoop]

theorem maskLoop_spec (word : Nat) :
    ∀ t fuel, t < fuel →
      (maskLoop word fuel (2 ^ t) = 0 ∧ ∀ i, i ≤ t → word.testBit i = false) ∨
      (∃ s, s ≤ t ∧ maskLoop word fuel (2 ^ t) = 2 ^ s ∧ word.testBit s = true ∧
        ∀ i, s < i → i ≤ t → word.testBit i = false) := by
  intro t
  induction t with
  | zero =>
    intro fuel hf
    obtain ⟨f, rfl⟩ : ∃ f, fuel = f + 1 := ⟨fuel - 1, by omega⟩
    have hpos : (2 : Nat) ^ 0 > 0 := Nat.two_pow_pos 0
    rw [maskLoop, if_pos hpos]
    by_cases hz : word.testBit 0 = false
    · have hand : ¬ (word &&& 2 ^ 0 ≠ 0) := fun h => h ((and_two_pow_eq_zero word 0).2 hz)
      rw [if_neg hand, show (2 : Nat) ^ 0 >>> 1 = 0 by decide, maskLoop_zero]
      left
      refine ⟨rfl, ?_⟩
      intro i hi
      have : i = 0 := by omega
      rw [this]; exact hz
    · have hand : word &&& 2 ^ 0 ≠ 0 := fun h => hz ((and_two_pow_eq_zero word 0).1 h)
      rw [if_pos hand]
      right
      exact ⟨0, le_refl _, rfl, by simpa using hz, fun i h1 h2 => by omega⟩
  | succ t ih =>
    intro fuel hf
    obtain ⟨f, rfl⟩ : ∃ f, fuel = f + 1 := ⟨fuel - 1, by omega⟩
    have hpos : (2 : Nat) ^ (t + 1) > 0 := Nat.two_pow_pos _
    rw [maskLoop, if_pos hpos]
    by_cases hz : word.testBit (t + 1) = false
    · have hand : ¬ (word &&& 2 ^ (t + 1) ≠ 0) :=
        fun h => h ((and_two_pow_eq_zero word (t + 1)).2 hz)
      rw [if_neg hand, two_pow_succ_shiftRight]
      rcases ih f (by omega) with ⟨h0, hall⟩ | ⟨s, hs, hm, hbit, habove⟩
      · left
        refine ⟨h0, ?_⟩
        intro i hi
        by_cases e : i = t + 1
        · rw [e]; exact hz
        · exact hall i (by omega)
      · right
        refine ⟨s, by omega, hm, hbit, ?_⟩
        intro i h1 h2
        by_cases e : i = t + 1
        · rw [e]; exact hz
        · exact habove i h1 (by omega)
    · have hand : word &&& 2 ^ (t + 1) ≠ 0 :=
        fun h => hz ((and_two_pow_eq_zero word (t + 1)).1 h)
      rw [if_pos hand]
      right
      exact ⟨t + 1, le_refl _, rfl, by simpa using hz, fun i h1 h2 => by omega⟩

theorem offset_of_wait (hw : Hardware) (mem : Mem) (fuel : Nat) (d : Driver) (tick tick2 : Nat)
    (hwait : offsetWait hw (u32 (d.bus + 240)) fuel tick = some tick2) :
    offset hw mem fuel d tick = some
      ({ d with
          spioff := (reduceOffsets (firstNonzero mem spibase 2001 0)
            (firstNonzero mem pcmbase 2001 0)).1
          pcmoff := (reduceOffsets (firstNonzero mem spibase 2001 0)
            (firstNonzero mem pcmbase 2001 0)).2
          mask := maskLoop (load mem (pcmbase + firstNonzero mem pcmbase 2001 0)) 33
            0x80000000 }, tick2) := by
  unfold offset
  simp only [hwait]

theorem stored_offsets (mem : Mem) :
    reduceOffsets (firstNonzero mem spibase 2001 0) (firstNonzero mem pcmbase 2001 0) =
      (firstNonzero mem spibase 2001 0
          - 6 * (min (firstNonzero mem spibase 2001 0) (firstNonzero mem pcmbase 2001 0) / 6),
        firstNonzero mem pcmbase 2001 0
          - 6 * (min (firstNonzero mem spibase 2001 0) (firstNonzero mem pcmbase 2001 0) / 6)) := by
  have h1 := (firstNonzero_scan mem spibase).1
  have h2 := (firstNonzero_scan mem pcmbase).1
  exact reduceOffsets_eq _ _ (by omega) (by omega)

theorem load_lt (mem : Mem) (a : Nat) : load mem a < 2 ^ 32 := by
  unfold load u32
  exact Nat.mod_lt _ (Nat.two_pow_pos 32)

theorem testBit_high (x i : Nat) (hx : x < 2 ^ 32) (hi : 32 ≤ i) : x.testBit i = false := by
  apply Nat.testBit_lt_two_pow
  exact Nat.lt_of_lt_of_le hx (Nat.pow_le_pow_right (by decide) hi)

/-- The transition mask found by `offset` in a nonzero word: its most significant set bit. -/
theorem maskLoop_msb (word : Nat) (hlt : word < 2 ^ 32) (hne : word ≠ 0) :
    ∃ t, t < 32 ∧ maskLoop word 33 0x80000000 = 2 ^ t ∧ word.testBit t = true ∧
      ∀ i, t < i → word.testBit i = false := by
  have h31 : (0x80000000 : Nat) = 2 ^ 31 := by norm_num
  rw [h31]
  rcases maskLoop_spec word 31 33 (by decide) with ⟨_, hall⟩ | ⟨s, hs, hm, hbit, habove⟩
  · exfalso
    apply hne
    apply Nat.eq_of_testBit_eq
    intro i
    rw [Nat.zero_testBit]
    by_cases hi : i ≤ 31
    · exact hall i hi
    · exact testBit_high word i hlt (by omega)
  · refine ⟨s, by omega, hm, hbit, ?_⟩
    intro i hi
    by_cases hi2 : i ≤ 31
    · exact habove i hi hi2
    · exact testBit_high word i hlt (by omega)

theorem offset_some (hw : Hardware) (mem : Mem) (fuel : Nat) (d : Driver) (tick : Nat)
    (r : Driver × Nat) (h : offset hw mem fuel d tick = some r) :
    r.1.spioff = (reduceOffsets (firstNonzero mem spibase 2001 0)
        (firstNonzero mem pcmbase 2001 0)).1 ∧
      r.1.pcmoff = (reduceOffsets (firstNonzero mem spibase 2001 0)
        (firstNonzero mem pcmbase 2001 0)).2 ∧
      r.1.half = d.half := by
  cases hwait : offsetWait hw (u32 (d.bus + 240)) fuel tick with
  | none =>
    unfold offset at h
    simp only [hwait] at h
    exact absurd h (by simp)
  | some t2 =>
    rw [offset_of_wait hw mem fuel d tick t2 hwait] at h
    injection h with h
    subst h
    exact ⟨rfl, rfl, rfl⟩

/-! ## The cursor and the busy wait of read -/

theorem read_none_of_wait (hw : Hardware) (mem : Mem) (fuel : Nat) (d : Driver) (tick : Nat)
    (buffer : Nat → Nat) (L : Nat) (hL : L ≤ 2700)
    (hwait : waitStable hw (u32 (d.half ^^^ 1)) (middleOf d) fuel tick = none) :
    read hw mem fuel d tick buffer L = none := by
  have hL2 : ¬ L > 2700 := by omega
  unfold read
  simp only [hL2, ↓reduceIte, hwait]
  split <;> rfl

theorem read_drv (hw : Hardware) (mem : Mem) (fuel : Nat) (d : Driver) (tick : Nat)
    (buffer : Nat → Nat) (L : Nat) (o : Outcome)
    (h : read hw mem fuel d tick buffer L = some o) :
    o.drv.half = u32 (d.half ^^^ 1) ∧ o.drv.spioff = d.spioff ∧ o.drv.pcmoff = d.pcmoff ∧
      o.drv.mask = d.mask ∧ o.drv.bus = d.bus := by
  by_cases hL : 2700 < L
  · rw [read_oversized hw mem fuel d tick buffer L hL] at h
    injection h with h
    subst h
    exact ⟨rfl, rfl, rfl, rfl, rfl⟩
  · cases hwait : waitStable hw (u32 (d.half ^^^ 1)) (middleOf d) fuel tick with
    | none =>
      rw [read_none_of_wait hw mem fuel d tick buffer L (by omega) hwait] at h
      exact absurd h (by simp)
    | some p =>
      obtain ⟨time, tick2⟩ := p
      rw [read_of_wait hw mem fuel d tick buffer L time tick2 (by omega) hwait] at h
      injection h with h
      subst h
      exact ⟨rfl, rfl, rfl, rfl, rfl⟩

theorem flip_le_one (x : Nat) (hx : x ≤ 1) :
    u32 (x ^^^ 1) ≤ 1 ∧ u32 (x ^^^ 1) = (x + 1) % 2 := by
  have h01 : x = 0 ∨ x = 1 := by omega
  rcases h01 with rfl | rfl <;> decide

theorem runReads_half (hw : Hardware) :
    ∀ (calls : List ReadCall) (d : Driver) (tick : Nat) (d2 : Driver) (tick2 : Nat),
      d.half ≤ 1 → runReads hw calls d tick = some (d2, tick2) →
      d2.half = (d.half + calls.length) % 2 := by
  intro calls
  induction calls with
  | nil =>
    intro d tick d2 tick2 hd h
    rw [runReads] at h
    injection h with h
    injection h with h1 h2
    subst h1
    simp only [List.length_nil, Nat.add_zero]
    omega
  | cons c cs ih =>
    intro d tick d2 tick2 hd h
    rw [runReads] at h
    cases hr : read hw c.mem c.fuel d tick c.buffer c.length with
    | none => rw [hr] at h; exact absurd h (by simp)
    | some o =>
      rw [hr] at h
      have hflip := (read_drv hw c.mem c.fuel d tick c.buffer c.length o hr).1
      obtain ⟨f1, f2⟩ := flip_le_one d.half hd
      have := ih o.drv o.tick d2 tick2 (by rw [hflip]; exact f1) h
      rw [this, hflip, f2, List.length_cons]
      omega

theorem waitStable_stuck (hw : Hardware) (half middle : Nat) :
    ∀ fuel tick,
      (∀ n, keepsWaiting half middle (u32 (hw.dmapos (tick + 2 * n + 1))) = true) →
      waitStable hw half middle fuel tick = none := by
  intro fuel
  induction fuel with
  | zero => intro tick _; rfl
  | succ f ih =>
    intro tick h
    rw [waitStable]
    have h0 := h 0
    simp only [Nat.mul_zero, Nat.add_zero] at h0
    simp only [h0, ↓reduceIte]
    apply ih
    intro n
    have := h (n + 1)
    rw [show tick + 2 * (n + 1) + 1 = tick + 2 + 2 * n + 1 by omega] at this
    exact this

/-! ## The read cursor and the wait: claims C11 and C12 -/

/-- C11: the read cursor `half` is flipped exactly once by every call of `read` that returns,
whatever its outcome and its length, and `offset` leaves it alone.  So, starting from the
value 1 set by `init_module`, after a run of `n` calls of `read` the cursor, which is the
half the `n`-th call targets, is 0 (top half) when `n` is odd and 1 (bottom half) when `n` is
even. -/
theorem read_cursor_alternates (hw : Hardware) (calls : List ReadCall) (d : Driver) (tick : Nat)
    (d2 : Driver) (tick2 : Nat) (hinit : d.half = 1)
    (hrun : runReads hw calls d tick = some (d2, tick2)) :
    d2.half = (if calls.length % 2 = 1 then 0 else 1) ∧
    (∀ (mem : Mem) (fuel : Nat) (e : Driver) (t : Nat) (buffer : Nat → Nat) (L : Nat)
        (o : Outcome),
      read hw mem fuel e t buffer L = some o → o.drv.half = u32 (e.half ^^^ 1)) ∧
    (∀ (mem : Mem) (fuel : Nat) (e : Driver) (t : Nat) (r : Driver × Nat),
      offset hw mem fuel e t = some r → r.1.half = e.half) := by
  refine ⟨?_, ?_, ?_⟩
  · rw [runReads_half hw calls d tick d2 tick2 (by omega) hrun, hinit]
    split <;> omega
  · intro mem fuel e t buffer L o h
    exact (read_drv hw mem fuel e t buffer L o h).1
  · intro mem fuel e t r h
    cases hwait : offsetWait hw (u32 (e.bus + 240)) fuel t with
    | none =>
      unfold offset at h
      simp only [hwait] at h
      exact absurd h (by simp)
    | some t2 =>
      rw [offset_of_wait hw mem fuel e t t2 hwait] at h
      injection h with h
      subst h
      rfl

/-- Instance of C11: three calls of length 2 after start up, on a write position that changes
half between the calls. -/
theorem read_cursor_alternates_witness :
    (bootDriver.half = 1 ∧
      runReads sweepHardware [shortCall, shortCall, shortCall] bootDriver 0
        = some ({ bootDriver with half := 0, middle := middleOf bootDriver, time := 8 }, 12)) ∧
    ({ bootDriver with half := 0, middle := middleOf bootDriver, time := 8 } : Driver).half
      = (if [shortCall, shortCall, shortCall].length % 2 = 1 then 0 else 1) :=
  ⟨⟨by decide, by decide⟩,
    (read_cursor_alternates sweepHardware [shortCall, shortCall, shortCall] bootDriver 0
      { bootDriver with half := 0, middle := middleOf bootDriver, time := 8 } 12
      (by decide) (by decide)).1⟩

/-- C12, the claim as stated fails: the write position stays below `middle` at every register
read, and the first read after start up, of the top half and of length 2, returns nothing
whatever the number of polls granted. -/
theorem read_blocks_counterexample :
    (2 ≤ 2700 ∧ u32 (bootDriver.half ^^^ 1) = 0 ∧
      ∀ n, u32 (idleHardware.dmapos n) < middleOf bootDriver) ∧
    ∀ fuel, read idleHardware (fun _ => 0) fuel bootDriver 0 (fun _ => 0) 2 = none :=
  ⟨⟨by decide, by decide,
      fun _ => by show u32 (0xC0000000 + 240) < middleOf bootDriver; decide⟩,
    fun fuel => read_none_of_wait idleHardware (fun _ => 0) fuel bootDriver 0 (fun _ => 0) 2
      (by decide) (waitStable_stuck idleHardware _ _ fuel 0 (fun _ => by
        show keepsWaiting (u32 (bootDriver.half ^^^ 1)) (middleOf bootDriver)
          (u32 (0xC0000000 + 240)) = true
        decide))⟩

/-- C12 as amended: if the write position never crosses `middle` in the direction required for
the half being read (below `middle` at every poll of a top half read, above `middle` at every
poll of a bottom half read), a call of `read` with length at most 2700 does not return: the
busy wait has no time limit and polls for ever, whatever the number of polls granted. -/
theorem read_blocks_while_not_crossed (hw : Hardware) (mem : Mem) (d : Driver) (tick : Nat)
    (buffer : Nat → Nat) (L fuel : Nat) (hL : L ≤ 2700)
    (hstuck : ∀ n, keepsWaiting (u32 (d.half ^^^ 1)) (middleOf d)
      (u32 (hw.dmapos (tick + 2 * n + 1))) = true) :
    read hw mem fuel d tick buffer L = none :=
  read_none_of_wait hw mem fuel d tick buffer L hL
    (waitStable_stuck hw _ _ fuel tick hstuck)

/-- Instance of C12 as amended: the first read after start up on a write position that rests
at the top of the ring, with a thousand polls granted. -/
theorem read_blocks_while_not_crossed_witness :
    (2700 ≤ 2700 ∧
      ∀ n, keepsWaiting (u32 (bootDriver.half ^^^ 1)) (middleOf bootDriver)
        (u32 (idleHardware.dmapos (0 + 2 * n + 1))) = true) ∧
    read idleHardware (fun a => a) 1000 bootDriver 0 (fun _ => 0) 2700 = none :=
  ⟨⟨by decide, fun _ => by
      show keepsWaiting (u32 (bootDriver.half ^^^ 1)) (middleOf bootDriver)
        (u32 (0xC0000000 + 240)) = true
      decide⟩,
    read_blocks_while_not_crossed idleHardware (fun a => a) bootDriver 0 (fun _ => 0) 2700 1000
      (by decide) (fun _ => by
        show keepsWaiting (u32 (bootDriver.half ^^^ 1)) (middleOf bootDriver)
          (u32 (0xC0000000 + 240)) = true
        decide)⟩

/-! ## Calibration: claims C13 to C16 and C20 -/

/-- C13, the claim as stated fails: the scans find the first nonzero words at the raw offsets 0
(SPI) and 7 (PCM), both within `[0,2000]`, and `offset` stores `pcmoff = 7`. -/
theorem offset_not_both_reduced_counterexample :
    firstNonzero skewedMem spibase 2001 0 = 0 ∧
    firstNonzero skewedMem pcmbase 2001 0 = 7 ∧
    Option.map (fun r => (r.1.spioff, r.1.pcmoff)) (offset idleHardware skewedMem 1 bootDriver 0)
      = some (0, 7) := by
  refine ⟨by decide, by decide, by decide⟩

/-- C13 as amended: once its wait has ended `offset` returns, and of the two stored offsets the
smaller one is below 6 and both are at most 2000; both are below 6 exactly when the two raw
scan results lie in the same period, that is have the same quotient by 6. -/
theorem offset_smaller_in_period (hw : Hardware) (mem : Mem) (fuel : Nat) (d : Driver)
    (tick tick2 : Nat) (hwait : offsetWait hw (u32 (d.bus + 240)) fuel tick = some tick2) :
    ∃ r, offset hw mem fuel d tick = some (r, tick2) ∧
      min r.spioff r.pcmoff < 6 ∧ r.spioff ≤ 2000 ∧ r.pcmoff ≤ 2000 ∧
      ((r.spioff < 6 ∧ r.pcmoff < 6) ↔
        firstNonzero mem spibase 2001 0 / 6 = firstNonzero mem pcmbase 2001 0 / 6) := by
  refine ⟨_, offset_of_wait hw mem fuel d tick tick2 hwait, ?_⟩
  dsimp only
  rw [stored_offsets mem]
  have h1 := (firstNonzero_scan mem spibase).1
  have h2 := (firstNonzero_scan mem pcmbase).1
  dsimp only
  refine ⟨?_, ?_, ?_, ?_⟩
  · omega
  · omega
  · omega
  · constructor <;> intro h <;> omega

/-- Instance of C13 as amended: the calibration on a capture region with raw offsets 0 and 7. -/
theorem offset_smaller_in_period_witness :
    offsetWait idleHardware (u32 (bootDriver.bus + 240)) 1 0 = some 1 ∧
    ∃ r, offset idleHardware skewedMem 1 bootDriver 0 = some (r, 1) ∧
      min r.spioff r.pcmoff < 6 :=
  ⟨by decide,
    (offset_smaller_in_period idleHardware skewedMem 1 bootDriver 0 1 (by decide)).imp
      (fun _ h => ⟨h.1, h.2.1⟩)⟩

/-- C14: the reduction at the end of `offset` subtracts the same multiple of 6 from both raw
offsets without unsigned underflow.  For all unsigned `a` (SPI) and `b` (PCM), with
`f = min a b / 6`: `6 f` is at most `a` and at most `b`, the stored values are `a - 6 f` and
`b - 6 f`, the difference of the two is kept (`pcmoff + a = spioff + b`), each stored offset
is congruent modulo 6 to its raw offset, and the smaller stored offset is below 6. -/
theorem reduceOffsets_same_multiple (a b : Nat) (ha : a < 2 ^ 32) (hb : b < 2 ^ 32) :
    6 * (min a b / 6) ≤ a ∧ 6 * (min a b / 6) ≤ b ∧
    (reduceOffsets a b).1 = a - 6 * (min a b / 6) ∧
    (reduceOffsets a b).2 = b - 6 * (min a b / 6) ∧
    (reduceOffsets a b).2 + a = (reduceOffsets a b).1 + b ∧
    (reduceOffsets a b).1 % 6 = a % 6 ∧ (reduceOffsets a b).2 % 6 = b % 6 ∧
    min (reduceOffsets a b).1 (reduceOffsets a b).2 < 6 := by
  rw [reduceOffsets_eq a b ha hb]
  dsimp only
  refine ⟨?_, ?_, rfl, rfl, ?_, ?_, ?_, ?_⟩ <;> omega

/-- Instance of C14: raw offsets 13 and 8. -/
theorem reduceOffsets_same_multiple_witness :
    (13 < 2 ^ 32 ∧ 8 < 2 ^ 32) ∧
    (reduceOffsets 13 8).1 = 13 - 6 * (min 13 8 / 6) ∧
    (reduceOffsets 13 8).2 = 8 - 6 * (min 13 8 / 6) :=
  ⟨⟨by decide, by decide⟩,
    (reduceOffsets_same_multiple 13 8 (by decide) (by decide)).2.2.1,
    (reduceOffsets_same_multiple 13 8 (by decide) (by decide)).2.2.2.1⟩

/-- C15: calibration is phase stable.  If in `mem2` the first nonzero word of each channel lies
the same whole number `m` of periods after its place in `mem1` (raw offsets `(a, b)` and
`(a + 6 m, b + 6 m)`, all below the scan cap of 2000), the two calibrations store the same
offsets.  And a second calibration on the unchanged content `mem1` stores the offsets of the
first, whatever the hardware and the driver variables it starts from. -/
theorem offset_phase_stable (hw1 hw2 : Hardware) (mem1 mem2 : Mem) (fuel1 fuel2 : Nat)
    (d1 d2 : Driver) (tick1 tick2 t1 t2 a b m : Nat)
    (hA1 : FirstNonzeroAt mem1 spibase a) (hB1 : FirstNonzeroAt mem1 pcmbase b)
    (hA2 : FirstNonzeroAt mem2 spibase (a + 6 * m))
    (hB2 : FirstNonzeroAt mem2 pcmbase (b + 6 * m))
    (hwait1 : offsetWait hw1 (u32 (d1.bus + 240)) fuel1 tick1 = some t1)
    (hwait2 : offsetWait hw2 (u32 (d2.bus + 240)) fuel2 tick2 = some t2) :
    ∃ r1 r2, offset hw1 mem1 fuel1 d1 tick1 = some (r1, t1) ∧
      offset hw2 mem2 fuel2 d2 tick2 = some (r2, t2) ∧
      r1.spioff = r2.spioff ∧ r1.pcmoff = r2.pcmoff ∧
      (∀ (hw3 : Hardware) (fuel3 tick3 : Nat) (r3 : Driver × Nat),
        offset hw3 mem1 fuel3 r1 tick3 = some r3 →
          r3.1.spioff = r1.spioff ∧ r3.1.pcmoff = r1.pcmoff) := by
  refine ⟨_, _, offset_of_wait hw1 mem1 fuel1 d1 tick1 t1 hwait1,
    offset_of_wait hw2 mem2 fuel2 d2 tick2 t2 hwait2, ?_, ?_, ?_⟩
  · dsimp only
    rw [stored_offsets mem1, stored_offsets mem2, firstNonzero_of_at _ _ _ hA1,
      firstNonzero_of_at _ _ _ hB1, firstNonzero_of_at _ _ _ hA2, firstNonzero_of_at _ _ _ hB2]
    dsimp only
    omega
  · dsimp only
    rw [stored_offsets mem1, stored_offsets mem2, firstNonzero_of_at _ _ _ hA1,
      firstNonzero_of_at _ _ _ hB1, firstNonzero_of_at _ _ _ hA2, firstNonzero_of_at _ _ _ hB2]
    dsimp only
    omega
  · intro hw3 fuel3 tick3 r3 h3
    obtain ⟨e1, e2, _⟩ := offset_some hw3 mem1 fuel3 _ tick3 r3 h3
    exact ⟨e1, e2⟩

/-- Instance of C15: raw offsets `(0, 7)` in one capture region and `(6, 13)`, one period
later, in the other. -/
theorem offset_phase_stable_witness :
    (FirstNonzeroAt skewedMem spibase 0 ∧ FirstNonzeroAt skewedMem pcmbase 7 ∧
      FirstNonzeroAt shiftedMem spibase (0 + 6 * 1) ∧
      FirstNonzeroAt shiftedMem pcmbase (7 + 6 * 1) ∧
      offsetWait idleHardware (u32 (bootDriver.bus + 240)) 1 0 = some 1) ∧
    ∃ r1 r2, offset idleHardware skewedMem 1 bootDriver 0 = some (r1, 1) ∧
      offset idleHardware shiftedMem 1 bootDriver 0 = some (r2, 1) ∧
      r1.spioff = r2.spioff ∧ r1.pcmoff = r2.pcmoff := by
  have hA1 : FirstNonzeroAt skewedMem spibase 0 := by unfold FirstNonzeroAt; decide
  have hB1 : FirstNonzeroAt skewedMem pcmbase 7 := by unfold FirstNonzeroAt; decide
  have hA2 : FirstNonzeroAt shiftedMem spibase (0 + 6 * 1) := by unfold FirstNonzeroAt; decide
  have hB2 : FirstNonzeroAt shiftedMem pcmbase (7 + 6 * 1) := by unfold FirstNonzeroAt; decide
  have hwait : offsetWait idleHardware (u32 (bootDriver.bus + 240)) 1 0 = some 1 := by decide
  obtain ⟨r1, r2, e1, e2, e3, e4, _⟩ :=
    offset_phase_stable idleHardware idleHardware skewedMem shiftedMem 1 1 bootDriver bootDriver
      0 0 1 1 0 7 1 hA1 hB1 hA2 hB2 hwait hwait
  exact ⟨⟨hA1, hB1, hA2, hB2, hwait⟩, r1, r2, e1, e2, e3, e4⟩

/-- C16, the claim as stated fails: the first 2000 words of both channels are zero, and the
offsets stored by `offset` are 2 and 2, not the cap value 2000. -/
theorem offset_cap_not_stored_counterexample :
    (∀ j, j < 2000 → load (fun _ => 0) (spibase + j) = 0) ∧
    (∀ j, j < 2000 → load (fun _ => 0) (pcmbase + j) = 0) ∧
    Option.map (fun r => (r.1.spioff, r.1.pcmoff))
        (offset idleHardware (fun _ => 0) 1 bootDriver 0)
      = some (2, 2) := by
  have hz : ∀ base j, j < 2000 → load (fun _ => 0) (base + j) = 0 := fun _ _ _ => rfl
  refine ⟨hz spibase, hz pcmbase, ?_⟩
  rw [offset_of_wait idleHardware (fun _ => 0) 1 bootDriver 0 1 (by decide)]
  simp only [Option.map_some', firstNonzero_of_zero _ _ (hz spibase),
    firstNonzero_of_zero _ _ (hz pcmbase)]
  decide

/-- C16 as amended: if the first 2000 words of a channel are all zero when `offset` scans them,
the raw scan result of that channel is the cap value 2000, and the offset stored for it is
2000 less the multiple of 6 that the reduction subtracts, `2000 - 6 * (r / 6)` with `r` the
raw scan result of the other channel; it is 2000 exactly when `r < 6`. -/
theorem offset_cap_then_reduced (hw : Hardware) (mem : Mem) (fuel : Nat) (d : Driver)
    (tick tick2 : Nat) (hwait : offsetWait hw (u32 (d.bus + 240)) fuel tick = some tick2) :
    ∃ r, offset hw mem fuel d tick = some (r, tick2) ∧
      ((∀ j, j < 2000 → load mem (spibase + j) = 0) →
        firstNonzero mem spibase 2001 0 = 2000 ∧
        r.spioff = 2000 - 6 * (firstNonzero mem pcmbase 2001 0 / 6) ∧
        (r.spioff = 2000 ↔ firstNonzero mem pcmbase 2001 0 < 6)) ∧
      ((∀ j, j < 2000 → load mem (pcmbase + j) = 0) →
        firstNonzero mem pcmbase 2001 0 = 2000 ∧
        r.pcmoff = 2000 - 6 * (firstNonzero mem spibase 2001 0 / 6) ∧
        (r.pcmoff = 2000 ↔ firstNonzero mem spibase 2001 0 < 6)) := by
  refine ⟨_, offset_of_wait hw mem fuel d tick tick2 hwait, ?_, ?_⟩
  · intro hzero
    have hA := firstNonzero_of_zero mem spibase hzero
    have hB := (firstNonzero_scan mem pcmbase).1
    dsimp only
    rw [stored_offsets mem, hA]
    dsimp only
    refine ⟨rfl, ?_, ?_⟩
    · omega
    · constructor <;> intro h <;> omega
  · intro hzero
    have hB := firstNonzero_of_zero mem pcmbase hzero
    have hA := (firstNonzero_scan mem spibase).1
    dsimp only
    rw [stored_offsets mem, hB]
    dsimp only
    refine ⟨rfl, ?_, ?_⟩
    · omega
    · constructor <;> intro h <;> omega

/-- Instance of C16 as amended: the calibration on a cleared capture region. -/
theorem offset_cap_then_reduced_witness :
    offsetWait idleHardware (u32 (bootDriver.bus + 240)) 1 0 = some 1 ∧
    ∃ r, offset idleHardware (fun _ => 0) 1 bootDriver 0 = some (r, 1) ∧
      ((∀ j, j < 2000 → load (fun _ => 0) (spibase + j) = 0) →
        firstNonzero (fun _ => 0) spibase 2001 0 = 2000) :=
  ⟨by decide,
    (offset_cap_then_reduced idleHardware (fun _ => 0) 1 bootDriver 0 1 (by decide)).imp
      (fun _ h => ⟨h.1, fun hz => (h.2.1 hz).1⟩)⟩

/-- C20: the calibration scan of `offset` finds the first set data.  Once the wait of `offset`
has ended the call returns; the raw offset of each channel is the least index `j < 2000` whose
buffer word is nonzero, or 2000 if there is none; the stored offsets are the reduction of the
two raw offsets; and when channel B has such a word the stored mask has exactly one bit set,
the most significant set bit of that first nonzero word. -/
theorem offset_finds_first_set (hw : Hardware) (mem : Mem) (fuel : Nat) (d : Driver)
    (tick tick2 : Nat) (hwait : offsetWait hw (u32 (d.bus + 240)) fuel tick = some tick2) :
    ∃ r, offset hw mem fuel d tick = some (r, tick2) ∧
      (firstNonzero mem spibase 2001 0 ≤ 2000 ∧
        (∀ j, j < firstNonzero mem spibase 2001 0 → load mem (spibase + j) = 0) ∧
        (firstNonzero mem spibase 2001 0 < 2000 →
          load mem (spibase + firstNonzero mem spibase 2001 0) ≠ 0)) ∧
      (firstNonzero mem pcmbase 2001 0 ≤ 2000 ∧
        (∀ j, j < firstNonzero mem pcmbase 2001 0 → load mem (pcmbase + j) = 0) ∧
        (firstNonzero mem pcmbase 2001 0 < 2000 →
          load mem (pcmbase + firstNonzero mem pcmbase 2001 0) ≠ 0)) ∧
      (r.spioff, r.pcmoff)
        = reduceOffsets (firstNonzero mem spibase 2001 0) (firstNonzero mem pcmbase 2001 0) ∧
      (firstNonzero mem pcmbase 2001 0 < 2000 →
        ∃ t, t < 32 ∧ r.mask = 2 ^ t ∧
          (load mem (pcmbase + firstNonzero mem pcmbase 2001 0)).testBit t = true ∧
          ∀ i, t < i →
            (load mem (pcmbase + firstNonzero mem pcmbase 2001 0)).testBit i = false) := by
  refine ⟨_, offset_of_wait hw mem fuel d tick tick2 hwait, firstNonzero_scan mem spibase,
    firstNonzero_scan mem pcmbase, rfl, ?_⟩
  intro hlt
  exact maskLoop_msb _ (load_lt mem _) ((firstNonzero_scan mem pcmbase).2.2 hlt)

/-- Instance of C20: the calibration on a capture region with raw offsets 0 and 7. -/
theorem offset_finds_first_set_witness :
    offsetWait idleHardware (u32 (bootDriver.bus + 240)) 1 0 = some 1 ∧
    ∃ r, offset idleHardware skewedMem 1 bootDriver 0 = some (r, 1) ∧
      (r.spioff, r.pcmoff)
        = reduceOffsets (firstNonzero skewedMem spibase 2001 0)
            (firstNonzero skewedMem pcmbase 2001 0) :=
  ⟨by decide,
    (offset_finds_first_set idleHardware skewedMem 1 bootDriver 0 1 (by decide)).imp
      (fun _ h => ⟨h.1, h.2.2.2.1⟩)⟩

/-! ## Successive reads and the windows of spiparse: claims C17 and C19 -/

theorem read_samples (hw : Hardware) (mem : Mem) (fuel : Nat) (d : Driver) (tick : Nat)
    (buffer : Nat → Nat) (L time tick2 : Nat)
    (hL : L ≤ 2700) (hs : d.spioff ≤ 2000) (hp : d.pcmoff ≤ 2000)
    (hh : u32 (d.half ^^^ 1) ≤ 1)
    (hwait : waitStable hw (u32 (d.half ^^^ 1)) (middleOf d) fuel tick = some (time, tick2)) :
    ∃ o, read hw mem fuel d tick buffer L = some o ∧
      o.drv.half = u32 (d.half ^^^ 1) ∧ o.drv.spioff = d.spioff ∧ o.drv.pcmoff = d.pcmoff ∧
      o.drv.mask = d.mask ∧ o.drv.bus = d.bus ∧ o.tick = tick2 + 2 ∧
      ∀ i, o.buffer i =
        if i < L then
          if i % 2 = 0 then
            spiparse mem (spibase + (8100 * u32 (d.half ^^^ 1) + d.spioff + 2 + 3 * i) % 16200)
          else
            pcmparse mem
              (pcmbase + (8100 * u32 (d.half ^^^ 1) + d.pcmoff + 2 + 3 * (i - 1)) % 16200) d.mask
        else buffer i := by
  refine ⟨_, read_of_wait hw mem fuel d tick buffer L time tick2 hL hwait, rfl, rfl, rfl, rfl,
    rfl, rfl, ?_⟩
  intro i
  dsimp only
  exact scanned_buffer mem d buffer L _ hL hs hp hh i

/-- C17: two consecutive reads of the full length 2700, the first of the half `h` and the second
of the other half, decode a continuous sequence of samples.  Both calls return once their
waits have ended; sample `n` of the pair (`n < 1350` in the first read, `1350 ≤ n < 2700` in
the second) of channel A is decoded at ring word `(8100 h + spioff + 2 + 6 n) mod 16200`, that
of channel B at ring word `(8100 h + pcmoff + 2 + 6 n) mod 16200`.  These 2700 positions are
pairwise distinct, each is 6 words (mod 16200) after the one before, also across the two reads,
and they are the positions `base + 2 + 6 n' (mod 16200)`, `n' < 2700`, each taken once. -/
theorem read_pair_continuous (hw : Hardware) (mem1 mem2 : Mem) (fuel1 fuel2 : Nat) (d : Driver)
    (tick : Nat) (buf1 buf2 : Nat → Nat) (h time1 t1 time2 t2 : Nat)
    (hs : d.spioff ≤ 2000) (hp : d.pcmoff ≤ 2000) (hh : h ≤ 1)
    (htarget : u32 (d.half ^^^ 1) = h)
    (hwait1 : waitStable hw h (middleOf d) fuel1 tick = some (time1, t1))
    (hwait2 : waitStable hw (1 - h) (middleOf d) fuel2 (t1 + 2) = some (time2, t2)) :
    ∃ o1 o2, read hw mem1 fuel1 d tick buf1 2700 = some o1 ∧
      read hw mem2 fuel2 o1.drv o1.tick buf2 2700 = some o2 ∧
      (∀ n, n < 1350 →
        o1.buffer (2 * n)
          = spiparse mem1 (spibase + (8100 * h + d.spioff + 2 + 6 * n) % 16200) ∧
        o1.buffer (2 * n + 1)
          = pcmparse mem1 (pcmbase + (8100 * h + d.pcmoff + 2 + 6 * n) % 16200) d.mask) ∧
      (∀ n, 1350 ≤ n → n < 2700 →
        o2.buffer (2 * (n - 1350))
          = spiparse mem2 (spibase + (8100 * h + d.spioff + 2 + 6 * n) % 16200) ∧
        o2.buffer (2 * (n - 1350) + 1)
          = pcmparse mem2 (pcmbase + (8100 * h + d.pcmoff + 2 + 6 * n) % 16200) d.mask) ∧
      (∀ base n n2, n < 2700 → n2 < 2700 →
        (8100 * h + base + 2 + 6 * n) % 16200 = (8100 * h + base + 2 + 6 * n2) % 16200 →
        n = n2) ∧
      (∀ base n, (8100 * h + base + 2 + 6 * (n + 1)) % 16200
        = ((8100 * h + base + 2 + 6 * n) % 16200 + 6) % 16200) ∧
      (∀ base n, n < 2700 → (8100 * h + base + 2 + 6 * n) % 16200
        = (base + 2 + 6 * ((n + 1350 * h) % 2700)) % 16200) := by
  subst htarget
  have hflip : ∀ x, x ≤ 1 → u32 (x ^^^ 1) = 1 - x := by
    intro x hx
    have h01 : x = 0 ∨ x = 1 := by omega
    rcases h01 with rfl | rfl <;> decide
  obtain ⟨o1, e1, a1, a2, a3, a4, a5, a6, a7⟩ :=
    read_samples hw mem1 fuel1 d tick buf1 2700 time1 t1 (le_refl _) hs hp hh hwait1
  have hmid : middleOf o1.drv = middleOf d := by unfold middleOf; rw [a5, a2]
  have hh2 : u32 (o1.drv.half ^^^ 1) = 1 - u32 (d.half ^^^ 1) := by rw [a1]; exact hflip _ hh
  obtain ⟨o2, e2, _, _, _, _, _, _, b7⟩ :=
    read_samples hw mem2 fuel2 o1.drv o1.tick buf2 2700 time2 t2 (le_refl _)
      (by rw [a2]; exact hs) (by rw [a3]; exact hp) (by rw [hh2]; omega)
      (by rw [hh2, hmid, a6]; exact hwait2)
  have h01 : u32 (d.half ^^^ 1) = 0 ∨ u32 (d.half ^^^ 1) = 1 := by omega
  refine ⟨o1, o2, e1, e2, ?_, ?_, ?_, ?_, ?_⟩
  · intro n hn
    constructor
    · rw [a7, if_pos (by omega), if_pos (by omega),
        show 3 * (2 * n) = 6 * n by omega]
    · rw [a7, if_pos (by omega), if_neg (by omega),
        show 3 * (2 * n + 1 - 1) = 6 * n by omega]
  · intro n hn1 hn2
    have eA : (8100 * (1 - u32 (d.half ^^^ 1)) + d.spioff + 2 + 3 * (2 * (n - 1350))) % 16200
        = (8100 * u32 (d.half ^^^ 1) + d.spioff + 2 + 6 * n) % 16200 := by
      rcases h01 with h0 | h1
      · rw [h0]; omega
      · rw [h1]; omega
    have eB : (8100 * (1 - u32 (d.half ^^^ 1)) + d.pcmoff + 2 + 3 * (2 * (n - 1350) + 1 - 1))
          % 16200
        = (8100 * u32 (d.half ^^^ 1) + d.pcmoff + 2 + 6 * n) % 16200 := by
      rcases h01 with h0 | h1
      · rw [h0]; omega
      · rw [h1]; omega
    rw [b7, b7, hh2, a2, a3, a4]
    constructor
    · rw [if_pos (by omega), if_pos (by omega), eA]
    · rw [if_pos (by omega), if_neg (by omega), eB]
  · intro base n n2 hn hn2 heq
    omega
  · intro base n
    omega
  · intro base n hn
    rcases h01 with h0 | h1
    · rw [h0]; omega
    · rw [h1]; omega

/-- Instance of C17: the first two reads after start up, the top half and then the bottom
half, on a write position that changes half between the two calls. -/
theorem read_pair_continuous_witness :
    (bootDriver.spioff ≤ 2000 ∧ bootDriver.pcmoff ≤ 2000 ∧ 0 ≤ 1 ∧
      u32 (bootDriver.half ^^^ 1) = 0 ∧
      waitStable sweepHardware 0 (middleOf bootDriver) 1 0 = some (0, 2) ∧
      waitStable sweepHardware (1 - 0) (middleOf bootDriver) 1 (2 + 2) = some (4, 6)) ∧
    ∃ o1 o2, read sweepHardware (fun a => a) 1 bootDriver 0 (fun _ => 0) 2700 = some o1 ∧
      read sweepHardware (fun a => a) 1 o1.drv o1.tick (fun _ => 0) 2700 = some o2 ∧
      (∀ n, 1350 ≤ n → n < 2700 →
        o2.buffer (2 * (n - 1350))
          = spiparse (fun a => a)
              (spibase + (8100 * 0 + bootDriver.spioff + 2 + 6 * n) % 16200) ∧
        o2.buffer (2 * (n - 1350) + 1)
          = pcmparse (fun a => a)
              (pcmbase + (8100 * 0 + bootDriver.pcmoff + 2 + 6 * n) % 16200) bootDriver.mask) := by
  obtain ⟨o1, o2, e1, e2, _, e4, _⟩ :=
    read_pair_continuous sweepHardware (fun a => a) (fun a => a) 1 1 bootDriver 0 (fun _ => 0)
      (fun _ => 0) 0 0 2 4 6 (by decide) (by decide) (by decide) (by decide) (by decide)
      (by decide)
  exact ⟨⟨by decide, by decide, by decide, by decide, by decide, by decide⟩, o1, o2, e1, e2, e4⟩

/-- C19, the code at the failing input: the stored `spioff` is 1 (the calibration result for
raw offsets 1 and 1), the read is one of the bottom half and of length 2700.  The window of
output byte 2698 starts at ring word 16197, so its fourth word is the first word of the
channel-B buffer: with channel A all ones the byte is 128 when that word is all ones and 96
when that word is zero. -/
theorem read_window_crosses_spiend :
    reduceOffsets 1 1 = (lateDriver.spioff, lateDriver.pcmoff) ∧
    u32 (lateDriver.half ^^^ 1) = 1 ∧
    (8100 * 1 + lateDriver.spioff + 2 + 3 * 2698) % 16200 = 16197 ∧
    spibase + 16197 + 3 = spiend ∧ spiend = pcmbase ∧
    ∃ o1 o2,
      read idleHardware (fun _ => 0xFFFFFFFF) 1 lateDriver 0 (fun _ => 0) 2700 = some o1 ∧
      read idleHardware (fun a => if a = pcmbase then 0 else 0xFFFFFFFF) 1 lateDriver 0
        (fun _ => 0) 2700 = some o2 ∧
      o1.buffer 2698 = 128 ∧ o2.buffer 2698 = 96 := by
  obtain ⟨o1, e1, _, _, _, _, _, _, a7⟩ :=
    read_samples idleHardware (fun _ => 0xFFFFFFFF) 1 lateDriver 0 (fun _ => 0) 2700 0 2
      (by decide) (by decide) (by decide) (by decide) (by decide)
  obtain ⟨o2, e2, _, _, _, _, _, _, b7⟩ :=
    read_samples idleHardware (fun a => if a = pcmbase then 0 else 0xFFFFFFFF) 1 lateDriver 0
      (fun _ => 0) 2700 0 2 (by decide) (by decide) (by decide) (by decide) (by decide)
  refine ⟨by decide, by decide, by decide, by decide, by decide, o1, o2, e1, e2, ?_, ?_⟩
  · rw [a7, if_pos (by decide), if_pos (by decide)]
    set_option maxRecDepth 100000 in decide
  · rw [b7, if_pos (by decide), if_pos (by decide)]
    set_option maxRecDepth 100000 in decide

/-! ## The descriptors written by memory: claim C21 -/

theorem memoryFill_links (bus : Nat) (mem : Mem) :
    load (memoryFill bus mem) 5 = u32 bus ∧
    load (memoryFill bus mem) 13 = u32 (bus + 64) ∧
    load (memoryFill bus mem) 21 = u32 (bus + 32) ∧
    load (memoryFill bus mem) 29 = u32 (bus + 96) := by
  simp [memoryFill, poke, load, u32]

/-- C21, the claim as stated fails: in the region that `memory` fills at bus address
`0xC0000000`, the next link of descriptor 1 (at `bus + 0`) is the address of descriptor 1
itself, not of descriptor 2, and the next link of descriptor 4 (at `bus + 96`) is the address
of descriptor 4, not of descriptor 1. -/
theorem memory_links_counterexample :
    (memory (some 0xC0000000)).1 = 0 ∧
    nextLink 0xC0000000 (memoryFill 0xC0000000 (fun _ => 0)) 0xC0000000 = 0xC0000000 ∧
    nextLink 0xC0000000 (memoryFill 0xC0000000 (fun _ => 0)) (0xC0000000 + 96)
      = 0xC0000000 + 96 := by
  refine ⟨by decide, by decide, by decide⟩

/-- C21 as amended: the four transfer descriptors written by `memory` form three closed
chains.  Descriptor 1 (channel-B receive, at `bus + 0`) links to itself and descriptor 4
(channel-A receive, at `bus + 96`) links to itself; descriptor 2 (transfer length rewrite, at
`bus + 32`) links to descriptor 3 (reset pulse transmit, at `bus + 64`), which links back to
descriptor 2.  Following the links from a descriptor never leaves its chain. -/
theorem memory_descriptor_chains (bus : Nat) (mem : Mem) (hbus : bus + 131072 ≤ 2 ^ 32) :
    nextLink bus (memoryFill bus mem) bus = bus ∧
    nextLink bus (memoryFill bus mem) (bus + 32) = bus + 64 ∧
    nextLink bus (memoryFill bus mem) (bus + 64) = bus + 32 ∧
    nextLink bus (memoryFill bus mem) (bus + 96) = bus + 96 ∧
    (∀ n, (nextLink bus (memoryFill bus mem))^[n] bus = bus) ∧
    (∀ n, (nextLink bus (memoryFill bus mem))^[n] (bus + 96) = bus + 96) ∧
    (∀ n, (nextLink bus (memoryFill bus mem))^[2 * n] (bus + 32) = bus + 32 ∧
      (nextLink bus (memoryFill bus mem))^[2 * n + 1] (bus + 32) = bus + 64) := by
  obtain ⟨l1, l2, l3, l4⟩ := memoryFill_links bus mem
  have h1 : nextLink bus (memoryFill bus mem) bus = bus := by
    unfold nextLink
    rw [show (bus - bus) / 4 + 5 = 5 by omega, l1]
    unfold u32; omega
  have h2 : nextLink bus (memoryFill bus mem) (bus + 32) = bus + 64 := by
    unfold nextLink
    rw [show (bus + 32 - bus) / 4 + 5 = 13 by omega, l2]
    unfold u32; omega
  have h3 : nextLink bus (memoryFill bus mem) (bus + 64) = bus + 32 := by
    unfold nextLink
    rw [show (bus + 64 - bus) / 4 + 5 = 21 by omega, l3]
    unfold u32; omega
  have h4 : nextLink bus (memoryFill bus mem) (bus + 96) = bus + 96 := by
    unfold nextLink
    rw [show (bus + 96 - bus) / 4 + 5 = 29 by omega, l4]
    unfold u32; omega
  refine ⟨h1, h2, h3, h4, ?_, ?_, ?_⟩
  · intro n
    induction n with
    | zero => rfl
    | succ n ih => rw [Function.iterate_succ_apply, h1, ih]
  · intro n
    induction n with
    | zero => rfl
    | succ n ih => rw [Function.iterate_succ_apply, h4, ih]
  · intro n
    induction n with
    | zero => exact ⟨rfl, by rw [Function.iterate_succ_apply, h2]; rfl⟩
    | succ n ih =>
      obtain ⟨i1, i2⟩ := ih
      have e1 : (nextLink bus (memoryFill bus mem))^[2 * (n + 1)] (bus + 32) = bus + 32 := by
        rw [show 2 * (n + 1) = (2 * n + 1) + 1 by omega, Function.iterate_succ_apply', i2, h3]
      refine ⟨e1, ?_⟩
      rw [Function.iterate_succ_apply', e1, h2]

/-- Instance of C21 as amended: the region at bus address `0xC0000000`. -/
theorem memory_descriptor_chains_witness :
    0xC0000000 + 131072 ≤ 2 ^ 32 ∧
    nextLink 0xC0000000 (memoryFill 0xC0000000 (fun _ => 0)) (0xC0000000 + 32)
      = 0xC0000000 + 64 ∧
    nextLink 0xC0000000 (memoryFill 0xC0000000 (fun _ => 0)) (0xC0000000 + 64)
      = 0xC0000000 + 32 :=
  ⟨by decide,
    (memory_descriptor_chains 0xC0000000 (fun _ => 0) (by decide)).2.1,
    (memory_descriptor_chains 0xC0000000 (fun _ => 0) (by decide)).2.2.1⟩

/-! ## Failure of the set up: claim C22 -/

theorem dma_releases (r0 r1 r2 : Int) (h1 : r1 ≠ 0) (h2 : r2 ≠ 0) (h3 : r2 ≠ 1)
    (hfail : (dma r0 r1 r2 []).1 = -1) : (dma r0 r1 r2 []).2 = [] := by
  unfold dma at hfail ⊢
  by_cases c0 : r0 < 0
  · have : ¬ r0 ≥ 0 := by omega
    simp [c0, chanAlloc, this]
  · have p0 : r0 ≥ 0 := by omega
    by_cases c1 : r1 < 1
    · have : ¬ r1 ≥ 0 := by omega
      simp [c0, c1, chanAlloc, chanFree, p0, this]
    · have p1 : r1 ≥ 0 := by omega
      by_cases c2 : r2 < 2
      · have : ¬ r2 ≥ 0 := by omega
        simp [c0, c1, c2, chanAlloc, chanFree, p0, p1, this]
      · simp [c0, c1, c2] at hfail

theorem init_module_releases (alloc : Option Nat) (r0 r1 r2 : Int) (h1 : r1 ≠ 0)
    (h2 : r2 ≠ 0) (h3 : r2 ≠ 1) (hfail : (init_module alloc r0 r1 r2).1 = -1) :
    (init_module alloc r0 r1 r2).2 = { channels := [], region := false } := by
  cases alloc with
  | none => rfl
  | some bus =>
    have hmem : memory (some bus) = (0, some (bus, memoryFill bus (fun _ => 0))) := rfl
    unfold init_module at hfail ⊢
    rw [hmem] at hfail ⊢
    by_cases hd : (dma r0 r1 r2 []).1 = -1
    · have hrel := dma_releases r0 r1 r2 h1 h2 h3 hd
      simp [hd, hrel]
    · simp [hd] at hfail

/-- C22, the code at the failing input: the first allocation returns channel 5 and the second
returns channel 0.  `dma` takes the result 0 for a failure (`channel1 < 1`), frees channel 5
only and returns -1; `init_module` releases the region and reports the failure while channel
0 is still held.  The same happens to a third allocation that returns 1 (`channel2 < 2`).
When no allocation returns such a value, a failed `init_module` holds nothing. -/
theorem init_module_leaks_channel :
    dma 5 0 7 [] = (-1, [0]) ∧
    init_module (some 0xC0000000) 5 0 7 = (-1, { channels := [0], region := false }) ∧
    init_module (some 0xC0000000) 0 2 1 = (-1, { channels := [1], region := false }) ∧
    (∀ (alloc : Option Nat) (r0 r1 r2 : Int), r1 ≠ 0 → r2 ≠ 0 → r2 ≠ 1 →
      (init_module alloc r0 r1 r2).1 = -1 →
      (init_module alloc r0 r1 r2).2 = { channels := [], region := false }) :=
  ⟨by decide, by decide, by decide,
    fun alloc r0 r1 r2 h1 h2 h3 hfail => init_module_releases alloc r0 r1 r2 h1 h2 h3 hfail⟩

/-! ## A calibration that found nothing on channel B: claim C23 -/

theorem pcmparse_mask_zero (mem : Mem) (address : Nat) : pcmparse mem address 0 = 0 := by
  simp [pcmparse, pcmLoop]

theorem runReads_mask (hw : Hardware) :
    ∀ (calls : List ReadCall) (d : Driver) (tick : Nat) (d2 : Driver) (tick2 : Nat),
      runReads hw calls d tick = some (d2, tick2) → d2.mask = d.mask := by
  intro calls
  induction calls with
  | nil =>
    intro d tick d2 tick2 h
    rw [runReads] at h
    injection h with h
    injection h with h1 h2
    rw [h1]
  | cons c cs ih =>
    intro d tick d2 tick2 h
    rw [runReads] at h
    cases hr : read hw c.mem c.fuel d tick c.buffer c.length with
    | none => rw [hr] at h; exact absurd h (by simp)
    | some o =>
      rw [hr] at h
      rw [ih o.drv o.tick d2 tick2 h]
      exact (read_drv hw c.mem c.fuel d tick c.buffer c.length o hr).2.2.2.1

theorem read_odd_zero (hw : Hardware) (mem : Mem) (fuel : Nat) (d : Driver) (tick : Nat)
    (buffer : Nat → Nat) (L time tick2 : Nat) (hL : L ≤ 2700) (hmask : d.mask = 0)
    (hwait : waitStable hw (u32 (d.half ^^^ 1)) (middleOf d) fuel tick = some (time, tick2)) :
    ∃ o, read hw mem fuel d tick buffer L = some o ∧
      ∀ k, k < L → k % 2 = 1 → o.buffer k = 0 := by
  refine ⟨_, read_of_wait hw mem fuel d tick buffer L time tick2 hL hwait, ?_⟩
  intro k hk hpar
  dsimp only
  split
  · rw [scanLoop_apply _ _ _ _ _ _ _ _ (by omega), if_pos (by omega), hmask,
      pcmparse_mask_zero]
  · rw [scanLoop_apply _ _ _ _ _ _ _ _ (by omega), if_pos (by omega), hmask,
      pcmparse_mask_zero]

/-- C23: if at calibration channel B's words 0 to 2000 are all zero (no nonzero word among the
first 2000, and the word at scan index 2000 zero too), `offset` returns, once its wait has
ended, with `mask = 0`.  With `mask = 0` `pcmparse` returns 0 for every buffer content and
start address.  So after any run of reads that follows, every read of length at most 2700
whose wait ends stores 0 at every odd index below its length, whatever the captured data. -/
theorem offset_zero_mask_mutes_channel_b (hw : Hardware) (mem : Mem) (fuel : Nat) (d : Driver)
    (tick tick2 : Nat) (hwait : offsetWait hw (u32 (d.bus + 240)) fuel tick = some tick2)
    (hzero : ∀ j, j ≤ 2000 → load mem (pcmbase + j) = 0) :
    ∃ r, offset hw mem fuel d tick = some (r, tick2) ∧ r.mask = 0 ∧
      (∀ (mem2 : Mem) (address : Nat), pcmparse mem2 address r.mask = 0) ∧
      (∀ (hw2 : Hardware) (calls : List ReadCall) (t3 : Nat) (e : Driver) (t4 : Nat)
          (mem2 : Mem) (fuel2 : Nat) (buffer : Nat → Nat) (L time t5 : Nat),
        runReads hw2 calls r t3 = some (e, t4) → L ≤ 2700 →
        waitStable hw2 (u32 (e.half ^^^ 1)) (middleOf e) fuel2 t4 = some (time, t5) →
        ∃ o, read hw2 mem2 fuel2 e t4 buffer L = some o ∧
          ∀ k, k < L → k % 2 = 1 → o.buffer k = 0) := by
  have hscan : firstNonzero mem pcmbase 2001 0 = 2000 :=
    firstNonzero_of_zero mem pcmbase (fun j hj => hzero j (by omega))
  have hmask : maskLoop (load mem (pcmbase + firstNonzero mem pcmbase 2001 0)) 33 0x80000000
      = 0 := by
    rw [hscan, hzero 2000 (le_refl _)]
    decide
  refine ⟨_, offset_of_wait hw mem fuel d tick tick2 hwait, hmask, ?_, ?_⟩
  · intro mem2 address
    dsimp only
    rw [hmask]
    exact pcmparse_mask_zero mem2 address
  · intro hw2 calls t3 e t4 mem2 fuel2 buffer L time t5 hrun hL hwait2
    have he : e.mask = 0 := by
      rw [runReads_mask hw2 calls _ t3 e t4 hrun]
      exact hmask
    exact read_odd_zero hw2 mem2 fuel2 e t4 buffer L time t5 hL he hwait2

/-- Instance of C23: the calibration on a cleared capture region. -/
theorem offset_zero_mask_mutes_channel_b_witness :
    (offsetWait idleHardware (u32 (bootDriver.bus + 240)) 1 0 = some 1 ∧
      ∀ j, j ≤ 2000 → load (fun _ => 0) (pcmbase + j) = 0) ∧
    ∃ r, offset idleHardware (fun _ => 0) 1 bootDriver 0 = some (r, 1) ∧ r.mask = 0 :=
  ⟨⟨by decide, fun _ _ => rfl⟩,
    (offset_zero_mask_mutes_channel_b idleHardware (fun _ => 0) 1 bootDriver 0 1 (by decide)
      (fun _ _ => rfl)).imp (fun _ h => ⟨h.1, h.2.1⟩)⟩

end Analog2pi
